import Mathlib

/-!
Verification of the Starfish spectral-archive core against its source.

Each section embeds one part of the Python source (grid_tools/base_interfaces.py,
PHOENIX_tools.py, model.py, constants.py) as Lean definitions and proves or
refutes the claims about it.  Numbers that the Python code handles as floats are
modelled as rationals where the code is purely arithmetical and as reals where
square roots or transcendental functions occur.
-/

namespace Starfish

/-- The exception kinds surfaced by the embedded code: the Python builtins raised by
numpy/h5py/scipy (`KeyError`, `ValueError`, `TypeError`, `ZeroDivisionError`,
`IndexError`), the custom classes of `constants.py` (`GridError`,
`InterpolationError`), and the `RangeError` taxonomy entry that the specification
names (no class of that name exists anywhere in the source). -/
inductive PyErr where
  | keyError
  | gridError
  | interpolationError
  | valueError
  | typeError
  | zeroDivisionError
  | indexError
  | rangeError
  deriving DecidableEq, Repr

instance {ε α : Type} [DecidableEq ε] [DecidableEq α] : DecidableEq (Except ε α)
  | .error e, .error e' =>
    if h : e = e' then isTrue (by rw [h]) else isFalse (by intro hc; injection hc; exact h ‹_›)
  | .error _, .ok _ => isFalse (by intro hc; injection hc)
  | .ok _, .error _ => isFalse (by intro hc; injection hc)
  | .ok a, .ok a' =>
    if h : a = a' then isTrue (by rw [h]) else isFalse (by intro hc; injection hc; exact h ‹_›)

/-! ## HDF5Creator.process_grid (grid_tools/base_interfaces.py, lines 235-283)

`process_grid` enumerates `itertools.product(*self.points)`, calls
`GridInterface.load_flux` for each parameter tuple, records the enumeration index
in `invalid_params` when the load raises the not-found `ValueError` and
continues, writes a `flux` dataset keyed by `key_name.format(*param)` on success,
and finally stores `np.delete(all_params, invalid_params, axis=0)` as `pars`.
The raw-source loader is the collaborator `RawGridInterface.load_flux`
(raises `ValueError` when the file is absent on disk); it is modelled as an
`Option`-valued map, `none` being the raised not-found condition. -/

/-- `itertools.product(*points)`: cartesian product of the per-axis point lists,
leftmost axis varying slowest. -/
def cartProduct {α : Type} : List (List α) → List (List α)
  | [] => [[]]
  | axis :: rest => axis.flatMap (fun x => (cartProduct rest).map (x :: ·))

/-- A dataset written into the HDF5 `flux` group: its key, the processed flux
vector, and the non-empty FITS header keywords copied as attributes. -/
structure FluxEntry (κ : Type) where
  key : κ
  flux : List ℚ
  header : List (String × String)
  deriving DecidableEq, Repr

/-- The contents of the archive after `process_grid`: the `pars` matrix of valid
parameter combinations and the keyed `flux` collection. -/
structure Archive (κ : Type) where
  pars : List (List ℚ)
  flux : List (FluxEntry κ)
  deriving DecidableEq, Repr

/-- The body of `process_grid`'s enumeration loop, processing the parameter list
from enumeration index `i` on: on a failed load the index goes to
`invalid_params` (first component) and the loop continues; on success a flux
dataset is written (second component) holding the transformed flux and the
non-empty header keywords. -/
def gridLoop {κ : Type} (load : List ℚ → Option (List ℚ × List (String × String)))
    (transform : List ℚ → List ℚ) (keyName : List ℚ → κ) :
    ℕ → List (List ℚ) → List ℕ × List (FluxEntry κ)
  | _, [] => ([], [])
  | i, p :: rest =>
    let r := gridLoop load transform keyName (i + 1) rest
    match load p with
    | none => (i :: r.1, r.2)
    | some fh =>
      (r.1, ⟨keyName p, transform fh.1,
             fh.2.filter (fun kv => !(kv.1 == "") && !(kv.2 == ""))⟩ :: r.2)

/-- `np.delete(l, idxs, axis=0)` starting the index count at `s`: keep the rows
whose absolute index is not listed in `idxs`. -/
def npDeleteAux {α : Type} (idxs : List ℕ) : ℕ → List α → List α
  | _, [] => []
  | s, a :: t =>
    if s ∈ idxs then npDeleteAux idxs (s + 1) t else a :: npDeleteAux idxs (s + 1) t

/-- `np.delete(l, idxs, axis=0)`. -/
def npDelete {α : Type} (l : List α) (idxs : List ℕ) : List α :=
  npDeleteAux idxs 0 l

/-- `HDF5Creator.process_grid`: enumerate the cartesian product of the per-axis
points, load/transform/store each spectrum, tolerate not-found failures, and
store the surviving parameter rows as `pars`. -/
def processGrid {κ : Type} (load : List ℚ → Option (List ℚ × List (String × String)))
    (transform : List ℚ → List ℚ) (keyName : List ℚ → κ)
    (points : List (List ℚ)) : Archive κ :=
  let allParams := cartProduct points
  let r := gridLoop load transform keyName 0 allParams
  ⟨npDelete allParams r.1, r.2⟩

/-! ## HDF5Interface.load_flux (grid_tools/base_interfaces.py, lines 327-355)

The reader formats the parameter tuple into a key and indexes the h5py `flux`
group with it.  The docstring advertises ``:raises GridError: if spectrum is not
found``, but the body performs a bare mapping lookup, so an absent key raises the
Python builtin `KeyError` (the source even notes "will raise a KeyError"); no
`GridError` is ever constructed.  The h5py group is modelled as an association
list, the optional `self.ind` index truncation as a slice. -/

/-- `HDF5Interface.load_flux` (with `header=False`): format the key, look it up
in the `flux` group (an absent key raises `KeyError`), and apply the optional
`self.ind` truncation `fl[ind0:ind1]`. -/
def hdf5InterfaceLoadFlux {κ : Type} [DecidableEq κ]
    (fluxGroup : List (κ × List ℚ)) (keyName : List ℚ → κ)
    (ind : Option (ℕ × ℕ)) (parameters : List ℚ) : Except PyErr (List ℚ) :=
  match fluxGroup.lookup (keyName parameters) with
  | none => .error .keyError
  | some fl =>
    .ok (match ind with
         | none => fl
         | some ab => (fl.drop ab.1).take (ab.2 - ab.1))

/-! ## flux_interpolator_hdf5 (model.py, lines 85-106)

The linear-method interpolator is built by `flux_interpolator_hdf5`: it collects
`var_combos = [[temp, logg] for temp in T_points for logg in logg_points]`
(the full cartesian grid of the module-level `T_points[16:-25]` and
`logg_points[2:-2]`) together with the corresponding `LIB[t, l]` flux rows, and
constructs `LinearNDInterpolator(points, fluxes, fill_value=1.)`.  The scipy
collaborator's observable contract (the spec leaves its Delaunay triangulation
internal): a query inside the convex hull of the stored points returns the
triangulation-based piecewise-linear value; a query strictly outside the hull
RETURNS the constructor's `fill_value` broadcast over the flux length — nothing
is raised.  For the full cartesian product grid used here the convex hull is the
bounding rectangle of the points. -/

/-- `T_points` of model.py before slicing (72 temperatures). -/
def tPointsFull : List ℚ :=
  [2300, 2400, 2500, 2600, 2700, 2800, 2900, 3000, 3100, 3200, 3300, 3400, 3500,
   3600, 3700, 3800, 4000, 4100, 4200, 4300, 4400, 4500, 4600, 4700, 4800, 4900,
   5000, 5100, 5200, 5300, 5400, 5500, 5600, 5700, 5800, 5900, 6000, 6100, 6200,
   6300, 6400, 6500, 6600, 6700, 6800, 6900, 7000, 7200, 7400, 7600, 7800, 8000,
   8200, 8400, 8600, 8800, 9000, 9200, 9400, 9600, 9800, 10000, 10200, 10400,
   10600, 10800, 11000, 11200, 11400, 11600, 11800, 12000]

/-- `T_points = T_points[16:-25]` (model.py line 51): 4000 … 7000. -/
def tPoints : List ℚ := (tPointsFull.drop 16).take (tPointsFull.length - 25 - 16)

/-- `logg_points = np.arange(0.0, 6.1, 0.5)` (13 values 0.0 … 6.0). -/
def loggPointsFull : List ℚ :=
  [0, 1/2, 1, 3/2, 2, 5/2, 3, 7/2, 4, 9/2, 5, 11/2, 6]

/-- `logg_points = logg_points[2:-2]` (model.py line 52): 1.0 … 5.0. -/
def loggPoints : List ℚ := (loggPointsFull.drop 2).take (loggPointsFull.length - 2 - 2)

/-- Membership in the convex hull of a full cartesian product point set: the
hull of a product grid is its bounding rectangle, so a point is inside iff each
coordinate is between some stored coordinate below and some above. -/
def inProductHull (points : List (ℚ × ℚ)) (q : ℚ × ℚ) : Bool :=
  points.any (fun p => p.1 ≤ q.1) && points.any (fun p => q.1 ≤ p.1) &&
  points.any (fun p => p.2 ≤ q.2) && points.any (fun p => q.2 ≤ p.2)

/-- The state `LinearNDInterpolator(points, fluxes, fill_value=1.)` captures:
the stored points and flux rows, the scalar `fill_value`, the flux-vector length
(`len(wave_grid)`), and the triangulation-based interpolant used strictly inside
the hull (a scipy internal the spec declines to pin down). -/
structure LinearNDInterp where
  points : List (ℚ × ℚ)
  values : List (List ℚ)
  fillValue : ℚ
  nWave : ℕ
  tri : ℚ × ℚ → List ℚ

/-- Calling the interpolator: inside the hull, the triangulation value; outside,
the broadcast `fill_value`.  The call returns in both cases — `scipy` raises
nothing here, so no `InterpolationError` can propagate. -/
def LinearNDInterp.query (itp : LinearNDInterp) (q : ℚ × ℚ) : Except PyErr (List ℚ) :=
  .ok (if inProductHull itp.points q then itp.tri q
       else List.replicate itp.nWave itp.fillValue)

/-- `flux_interpolator_hdf5`: build the point list and flux matrix over the full
`T_points × logg_points` grid from the `LIB` dataset and hand them to
`LinearNDInterpolator` with the hard-coded `fill_value=1.` (the function takes
no argument that could disable or change the fallback). -/
def fluxInterpolatorHdf5 (LIB : ℕ → ℕ → List ℚ) (nWave : ℕ)
    (tri : ℚ × ℚ → List ℚ) : LinearNDInterp where
  points := tPoints.flatMap (fun t => loggPoints.map (fun g => (t, g)))
  values := (List.range tPoints.length).flatMap
    (fun t => (List.range loggPoints.length).map (fun l => LIB t l))
  fillValue := 1
  nWave := nWave
  tri := tri

/-! ## flux_interpolator (PHOENIX_tools.py, lines 112-120)

The nearest-method interpolator reads the `(T, logg)` rows of the parameter
file, loads one flux vector per row, and builds
`NearestNDInterpolator(np.array([T_list, logg_list]).T, fluxes)`.  The scipy
collaborator's observable contract: a query returns the stored value of the
point at minimal Euclidean distance (its KD-tree resolves exact ties in some
internal order; an exact hit has the unique minimal distance zero, so the tie
order is irrelevant there). -/

/-- Squared Euclidean distance in the 2-d parameter space. -/
def dist2 (a b : ℚ × ℚ) : ℚ := (a.1 - b.1) ^ 2 + (a.2 - b.2) ^ 2

/-- `NearestNDInterpolator(points, values)` applied to `q`: the value paired
with the point of minimal squared distance to `q` (first minimizer in storage
order). -/
def nearestQuery (points : List (ℚ × ℚ)) (values : List (List ℚ)) (q : ℚ × ℚ) :
    List ℚ :=
  match (points.zip values).argmin (fun pv => dist2 q pv.1) with
  | some pv => pv.2
  | none => []

/-- `flux_interpolator`: pair the `(T, logg)` rows with their loaded flux
vectors and query by nearest neighbour. -/
def fluxInterpolator (T_list logg_list : List ℚ)
    (loadFluxNpy : ℚ → ℚ → List ℚ) : ℚ × ℚ → List ℚ :=
  nearestQuery (T_list.zip logg_list)
    ((T_list.zip logg_list).map (fun p => loadFluxNpy p.1 p.2))

/-! ## create_wave_grid (PHOENIX_tools.py, lines 64-75)

`create_wave_grid(v, start, end)` allocates a 9-million-slot zero buffer, writes
`start` into slot 0, and while the last written value is below `end` (and the
buffer has room) appends the previous value times
`vel = sqrt((c_kms + v)/(c_kms - v))`; it returns
`lam_grid[np.nonzero(lam_grid)][:-1]` — the nonzero entries with the final one
dropped.  The function performs no validation of `v`, `start` or `end` and can
raise nothing.  Floats are modelled as reals (the ratio identity is exact in
this model; the Python floats satisfy it to rounding). -/

/-- Speed of light, km/s (`c_kms` of PHOENIX_tools.py). -/
noncomputable def c_kms : ℝ := 2.99792458e5

/-- `vel = np.sqrt((c_kms + v) / (c_kms - v))`. -/
noncomputable def velFactor (v : ℝ) : ℝ := Real.sqrt ((c_kms + v) / (c_kms - v))

/-- The buffer size of `create_wave_grid` (`size = 9000000`). -/
def waveGridSize : ℕ := 9000000

/-- The while-loop of `create_wave_grid`: the written prefix of the buffer,
starting from the current value `lam`, with `fuel` free slots remaining
(`size - 1` initially).  The loop exits when the last written value reaches
`endv` or the buffer is full. -/
noncomputable def waveLoop (vel endv : ℝ) : ℕ → ℝ → List ℝ
  | 0, lam => [lam]
  | n + 1, lam => if lam < endv then lam :: waveLoop vel endv n (lam * vel) else [lam]

/-- `create_wave_grid`: run the loop, keep the nonzero entries, drop the last. -/
noncomputable def create_wave_grid (v start endv : ℝ) : List ℝ :=
  ((waveLoop (velFactor v) endv (waveGridSize - 1) start).filter
    (fun x => decide (x ≠ 0))).dropLast

/-! ## HDF5Creator.__init__, wavelength grids (grid_tools/base_interfaces.py, 119-233)

The constructor computes the user bounds `wl_range ± buffer`, clips them to the
intersection of the native-library range and the instrument range, raises
`ValueError` when the clipped window is empty, and then builds the final output
grid: with an instrument, a log-lambda grid of requested
`dv = FWHM / oversampling`; without one, the native grid masked strictly to the
window with the native `dv`.  `dv_final` is stored verbatim as the `wl` dataset's
`dv` attribute (line 233).  The collaborators `calculate_dv`, `create_log_lam_grid`
and `calculate_dv_dict` live in `Starfish.utils`, which is not under src/, and the
`Instrument` class is likewise absent; they are modelled from the spec below. -/

/-- The `InstrumentProfile` collaborator interface (spec §6): FWHM (km/s), usable
wavelength range, oversampling factor. -/
structure Instrument where
  FWHM : ℝ
  wlRange : ℝ × ℝ
  oversampling : ℝ

/-- Modelled from the spec: `create_log_lam_grid` (`Starfish.utils`, not under
src/) builds the §4.1 constant-velocity log-lambda grid — the same
generate-until-`end`-and-drop-last algorithm as `create_wave_grid` — for the
requested `dv`, and `calculate_dv_dict` reads the realized `dv` back from it,
which by the §3 grid invariant (consecutive ratio `sqrt((c+dv)/(c-dv))`) is the
requested `dv` itself. -/
noncomputable def createLogLamGrid (dv wlStart wlEnd : ℝ) : List ℝ × ℝ :=
  (create_wave_grid dv wlStart wlEnd, dv)

/-- The buffered-then-clipped wavelength window of the constructor
(lines 173-197): user range widened by the configured buffer, clipped to
`imposed_min = max(wl_native[0], inst_min)` and
`imposed_max = min(wl_native[-1], inst_max)`.  A configured `wl_range = None`
starts from the pre-clip bounds `(0 - buffer, inf + buffer)`, which the clip
collapses to exactly `(imposed_min, imposed_max)` for the physical case of a
nonnegative buffer and positive native wavelengths; it is modelled as that
collapsed value. -/
noncomputable def creatorWlBounds (wlNative : List ℝ) (instrument : Option Instrument)
    (wlRange : Option (ℝ × ℝ)) (buffer : ℝ) : ℝ × ℝ :=
  let imposedMin := match instrument with
    | some i => max (wlNative.headD 0) i.wlRange.1
    | none => wlNative.headD 0
  let imposedMax := match instrument with
    | some i => min (wlNative.getLastD 0) i.wlRange.2
    | none => wlNative.getLastD 0
  match wlRange with
  | some r =>
    (if r.1 - buffer < imposedMin then imposedMin else r.1 - buffer,
     if imposedMax < r.2 + buffer then imposedMax else r.2 + buffer)
  | none => (imposedMin, imposedMax)

/-- The wavelength-grid state the constructor ends with: the final output grid
`self.wl_final` and its velocity spacing `self.dv_final`, stored as the `wl`
dataset and its `dv` attribute. -/
structure CreatorInit where
  wlFinal : List ℝ
  dvFinal : ℝ

/-- `HDF5Creator.__init__`, wavelength-grid part: clip the window (failing with
`ValueError` when empty), then with an instrument build the final log-lambda
grid at requested `dv = FWHM / oversampling`, and without one mask the native
grid strictly to the window keeping the native `dv`.  `dvNative` stands for
`calculate_dv(self.wl_native)` (`Starfish.utils`, not under src/): the native
velocity spacing of the raw library. -/
noncomputable def hdf5CreatorInitGrids (wlNative : List ℝ) (dvNative : ℝ)
    (instrument : Option Instrument) (wlRange : Option (ℝ × ℝ)) (buffer : ℝ) :
    Except PyErr CreatorInit :=
  let b := creatorWlBounds wlNative instrument wlRange buffer
  if b.2 < b.1 then .error .valueError
  else
    match instrument with
    | none => .ok ⟨wlNative.filter (fun w => decide (b.1 < w ∧ w < b.2)), dvNative⟩
    | some inst =>
      let dvTemp := inst.FWHM / inst.oversampling
      let wlDict := createLogLamGrid dvTemp b.1 b.2
      .ok ⟨wlDict.1, wlDict.2⟩

/-- Modelled from the spec: the end-to-end scenario instrument of §8 — FWHM 45
km/s, usable range `(1e4, 4e4)`.  Its oversampling is the collaborator default,
not under src/; the spec pins the resulting stored `dv ≈ 7.4 km/s`, fixing
`FWHM / oversampling` at `7.4`. -/
noncomputable def scenarioInstrument : Instrument :=
  ⟨45, (1e4, 4e4), 45 / 7.4⟩

/-! ## Fourier-domain broadening (model.py 292-334, PHOENIX_tools.py 219-222)

`model` takes `FF = fft(f_full)`, multiplies by the rotational taper `sb`
(`ss[0]` is first overwritten with the junk value 0.01 so the vectorised Bessel
expression avoids a 0/0, and afterwards `sb[0] = 1.` fixes the zero-frequency
bin), and returns `np.abs(ifft(FF))`.  `resample_and_convolve` does the same
with the Gaussian taper `gauss_taper` (`exp(-2 π² σ² s²)`).  Length-`N` numpy
arrays are embedded as functions on `ZMod N`; `numpy.fft.fft`/`ifft` agree with
Mathlib's `ZMod.dft` and its inverse.  `scipy.special.j1` is an external
special-function collaborator, taken as a parameter whose only assumed property
is the classical limit `j1(x)/x → 1/2` as `x → 0`. -/

/-- `numpy.fft.fftfreq(N, d)` as a function on the index group: index `k`
carries frequency `k/(N d)` for `k < (N+1)/2` and `(k-N)/(N d)` above. -/
noncomputable def fftfreqZ (N : ℕ) [NeZero N] (d : ℝ) (k : ZMod N) : ℝ :=
  if k.val < (N + 1) / 2 then (k.val : ℝ) / (N * d) else ((k.val : ℝ) - N) / (N * d)

/-- `ss` of model.py line 292 (`fftfreq(len(wave_grid), d=2.)`) after the junk
overwrite `ss[0] = 0.01` of line 323. -/
noncomputable def ssJunk (N : ℕ) [NeZero N] (k : ZMod N) : ℝ :=
  if k = 0 then 0.01 else fftfreqZ N 2 k

/-- The rotational taper `sb` of model.py lines 324-327: the Gray rotational
profile transform `j1(ub)/ub - 3cos(ub)/(2ub²) + 3sin(ub)/(2ub³)` at
`ub = 2π·vsini·ss`, with the zero-frequency bin then fixed to `sb[0] = 1`. -/
noncomputable def rotTaper (N : ℕ) [NeZero N] (j1 : ℝ → ℝ) (vsini : ℝ) (k : ZMod N) : ℝ :=
  if k = 0 then 1 else
    j1 (2 * Real.pi * vsini * ssJunk N k) / (2 * Real.pi * vsini * ssJunk N k) -
      3 * Real.cos (2 * Real.pi * vsini * ssJunk N k) /
        (2 * (2 * Real.pi * vsini * ssJunk N k) ^ 2) +
      3 * Real.sin (2 * Real.pi * vsini * ssJunk N k) /
        (2 * (2 * Real.pi * vsini * ssJunk N k) ^ 3)

/-- `gauss_taper` (PHOENIX_tools.py 219-222): the Fourier transform of a
Gaussian of width `sigma` km/s, `exp(-2 π² σ² s²)` (the same expression is
inlined at line 238 of `resample_and_convolve`). -/
noncomputable def gauss_taper (s sigma : ℝ) : ℝ :=
  Real.exp (-2 * Real.pi ^ 2 * sigma ^ 2 * s ^ 2)

/-- The rotational Fourier-broadening stage of `model` (model.py 317-334):
`FF = fft(f)`, `FF *= sb`, return `np.abs(ifft(FF))`. -/
noncomputable def modelRotBroaden (N : ℕ) [NeZero N] (j1 : ℝ → ℝ) (vsini : ℝ)
    (f : ZMod N → ℝ) : ZMod N → ℝ :=
  fun k => Complex.abs
    (ZMod.dft.symm
      (fun j => ZMod.dft (fun i => (f i : ℂ)) j * (rotTaper N j1 vsini j : ℂ)) k)

/-- The instrumental Fourier-broadening stage of `resample_and_convolve`
(PHOENIX_tools.py 232-243), on the `ZMod N` index group: `out = fft(f_grid)`,
`tout = out * taper(freqs)`, return `np.abs(ifft(tout))`. -/
noncomputable def gaussBroaden (N : ℕ) [NeZero N] (d sigma : ℝ)
    (f : ZMod N → ℝ) : ZMod N → ℝ :=
  fun k => Complex.abs
    (ZMod.dft.symm
      (fun j => ZMod.dft (fun i => (f i : ℂ)) j * (gauss_taper (fftfreqZ N d j) sigma : ℂ)) k)

/-! ## resample_and_convolve (PHOENIX_tools.py, lines 224-249)

The stage resamples the native flux onto the fine grid with
`InterpolatedUnivariateSpline(w, f)`, broadens in Fourier space with the
Gaussian taper, and resamples onto the coarse grid with a second spline.  The
scipy spline collaborator's observable contract (the spec declines to pin the
cubic pieces, §1): construction demands at least `k+1 = 4` strictly increasing
knots (`ValueError` otherwise) and the resulting callable is total on ℝ — with
the default `ext=0` it EXTRAPOLATES beyond the knot range instead of raising;
no bounds check of any kind exists in this stage.  The evaluator is modelled at
that granularity as the piecewise interpolant with boundary-segment
extrapolation: total, knot-exact, extrapolating. -/

/-- Piecewise evaluation over the knot pairs: the segment containing `t` (the
first one for `t` left of the range, the last one beyond it). -/
noncomputable def iusEvalSeg : List (ℝ × ℝ) → ℝ → ℝ
  | [], _ => 0
  | [(_, y)], _ => y
  | (x₁, y₁) :: (x₂, y₂) :: rest, t =>
    if t ≤ x₂ ∨ rest = [] then y₁ + (y₂ - y₁) * (t - x₁) / (x₂ - x₁)
    else iusEvalSeg ((x₂, y₂) :: rest) t

/-- The callable returned by `InterpolatedUnivariateSpline(xs, ys)`: total on
ℝ, extrapolating outside `[xs[0], xs[-1]]` (scipy default `ext=0`). -/
noncomputable def iusEval (xs ys : List ℝ) (t : ℝ) : ℝ :=
  iusEvalSeg (xs.zip ys) t

/-- `numpy.fft.fft`: `X_k = Σ_j x_j·exp(-2πi·jk/N)`, length preserving. -/
noncomputable def npFft (x : List ℂ) : List ℂ :=
  (List.range x.length).map (fun k =>
    ∑ j ∈ Finset.range x.length,
      x.getD j 0 * Complex.exp (-2 * Real.pi * Complex.I * j * k / x.length))

/-- `numpy.fft.ifft`: `x_j = N⁻¹·Σ_k X_k·exp(2πi·jk/N)`, length preserving. -/
noncomputable def npIfft (x : List ℂ) : List ℂ :=
  (List.range x.length).map (fun k =>
    (x.length : ℂ)⁻¹ * ∑ j ∈ Finset.range x.length,
      x.getD j 0 * Complex.exp (2 * Real.pi * Complex.I * j * k / x.length))

/-- `numpy.fft.fftfreq(n, d)` as a list. -/
noncomputable def npFftfreq (n : ℕ) (d : ℝ) : List ℝ :=
  (List.range n).map (fun k =>
    if k < (n + 1) / 2 then (k : ℝ) / (n * d) else ((k : ℝ) - n) / (n * d))

/-- `resample_and_convolve(f, wg_fine, wg_coarse, wg_fine_d, sigma)`: spline
onto the fine grid, Fourier broaden by the Gaussian taper (line 238 inlines
`gauss_taper`'s expression), spline the absolute value onto the coarse grid.
The only raises in the body are the two spline constructions. -/
noncomputable def resampleAndConvolve (w f wgFine wgCoarse : List ℝ)
    (wgFineD sigma : ℝ) : Except PyErr (List ℝ) :=
  if w.length < 4 ∨ ¬ w.Chain' (· < ·) then .error .valueError
  else
    let fGrid := wgFine.map (iusEval w f)
    let out := npFft (fGrid.map (fun x => (x : ℂ)))
    let freqs := npFftfreq fGrid.length wgFineD
    let tout := (out.zip freqs).map (fun p => p.1 * ((gauss_taper p.2 sigma : ℝ) : ℂ))
    let fGrid6 := npIfft tout
    if wgFine.length < 4 ∨ ¬ wgFine.Chain' (· < ·) then .error .valueError
    else .ok (wgCoarse.map (iusEval wgFine (fGrid6.map Complex.abs)))

/-- `Except` observable: did the call return normally? -/
def isOkE {ε α : Type} : Except ε α → Bool
  | .ok _ => true
  | .error _ => false

/-! ## downsample (model.py, lines 194-234)

The bin-overlap downsampler computes midpoint bin edges for the target
(`edges`) and source (`Pedges`) grids, locates the source bin containing the
first target edge (`np.argwhere`), and scans the source edges once: each time a
source edge passes the current target edge it emits
`np.average(f_m[i_start:i], weights)` where the boundary weights are fractional
bin overlaps (`ones` has only 10 slots, capping the weight vector).  Arrays are
embedded as rational lists; Python's negative-index wrap-around and slice
clamping are modelled exactly; `np.average` raises `TypeError` on a
length mismatch and `ZeroDivisionError` on zero weight-sum, and an empty
`weights[0]` assignment raises `IndexError`. -/

/-- numpy scalar indexing `l[i]` with Python's negative-index wrap-around.
(An index outside `[-len, len)` raises `IndexError` in numpy; the loop below
only produces in-range indices under the theorems' hypotheses, so the junk
default of this total model is never reached there.) -/
def pyIdx (l : List ℚ) (i : ℤ) : ℚ :=
  if i < 0 then l.getD (l.length - (-i).toNat) 0 else l.getD i.toNat 0

/-- Python slice `l[a:b]`: negative indices count from the end, then both
bounds clamp to `[0, len]`. -/
def pySlice (l : List ℚ) (a b : ℤ) : List ℚ :=
  let n : ℤ := l.length
  let a' := if a < 0 then max 0 (n + a) else min a n
  let b' := if b < 0 then max 0 (n + b) else min b n
  (l.drop a'.toNat).take (b'.toNat - a'.toNat)

/-- Midpoint bin edges (lines 199-211): for `n ≥ 2` points, `n + 1` edges —
`w[0] - (w[1]-w[0])/2`, the midpoints, and `w[-1] + (w[-1]-w[-2])/2`.
(Fewer than 2 points makes `difs[0]` raise `IndexError`; the caller checks.) -/
def binEdges (w : List ℚ) : List ℚ :=
  match w with
  | [] => []
  | [_] => []
  | w0 :: w1 :: _ =>
    let mids := (w.zip w.tail).map (fun p => (p.1 + p.2) / 2)
    let wlast := w.getD (w.length - 1) 0
    let wprev := w.getD (w.length - 2) 0
    (w0 - (w1 - w0) / 2) :: mids ++ [wlast + (wlast - wprev) / 2]

/-- `np.average(xs, weights=ws)`: `TypeError` when the shapes disagree,
`ZeroDivisionError` when the weights sum to zero. -/
def npAverage (xs ws : List ℚ) : Except PyErr ℚ :=
  if xs.length ≠ ws.length then .error .typeError
  else if ws.sum = 0 then .error .zeroDivisionError
  else .ok ((List.zipWith (· * ·) ws xs).sum / ws.sum)

/-- `weights = ones[:m].copy(); weights[0] = lw; weights[-1] = rw`: the module
level `ones` has 10 slots, so the slice caps at 10; assigning into an empty
slice raises `IndexError`. -/
def mkWeights (m : ℤ) (lw rw : ℚ) : Except PyErr (List ℚ) :=
  let len := min 10 (max 0 m).toNat
  if len = 0 then .error .indexError
  else .ok (((List.replicate len (1 : ℚ)).set 0 lw).set (len - 1) rw)

/-- The loop state of `downsample`: the emitted averages (`out_flux` is filled
left to right), the current target-edge index `edges_i`, the window start
`i_start`, the pending left weight, and the `break` flag. -/
structure DsState where
  out : List ℚ
  edgesI : ℕ
  iStart : ℤ
  leftW : ℚ
  done : Bool
  deriving DecidableEq, Repr

/-- One iteration of `downsample`'s scan at source-edge index `i`
(lines 219-233). -/
def dsStep (f_m edges Pedges : List ℚ) (lenTRES : ℕ) (st : DsState) (i : ℕ) :
    Except PyErr DsState :=
  if st.done then .ok st
  else if pyIdx edges st.edgesI < pyIdx Pedges i then do
    let rw := (pyIdx edges st.edgesI - pyIdx Pedges ((i : ℤ) - 1)) /
              (pyIdx Pedges i - pyIdx Pedges ((i : ℤ) - 1))
    let ws ← mkWeights ((i : ℤ) - st.iStart) st.leftW rw
    let avg ← npAverage (pySlice f_m st.iStart i) ws
    pure ⟨st.out ++ [avg], st.edgesI + 1, (i : ℤ) - 1, 1 - rw,
          decide (lenTRES < st.edgesI + 1)⟩
  else .ok st

/-- `downsample(w_m, f_m, w_TRES)`: compute both edge lists, locate the start
bin, scan all source edges, and return `out_flux` (bins never reached keep
their zero initialisation). -/
def downsample (w_m f_m w_TRES : List ℚ) : Except PyErr (List ℚ) :=
  if w_m.length < 2 ∨ w_TRES.length < 2 then .error .indexError
  else
    let edges := binEdges w_TRES
    let Pedges := binEdges w_m
    match (List.range Pedges.length).find?
        (fun j => decide (edges.getD 0 0 < Pedges.getD j 0)) with
    | none => .error .indexError
    | some j0 =>
      let iStart0 : ℤ := (j0 : ℤ) - 1
      let lw0 := (pyIdx Pedges (iStart0 + 1) - edges.getD 0 0) /
                 (pyIdx Pedges (iStart0 + 1) - pyIdx Pedges iStart0)
      match (List.range (w_m.length + 1)).foldlM
          (dsStep f_m edges Pedges w_TRES.length) ⟨[], 1, iStart0, lw0, false⟩ with
      | .error e => .error e
      | .ok st => .ok (st.out ++ List.replicate (w_TRES.length - st.out.length) 0)

/-- Closed source bin `j` and closed target bin `b` intersect: the left edge of
each lies at or before the right edge of the other. -/
def binsOverlap (w_m w_TRES : List ℚ) (j b : ℕ) : Prop :=
  (binEdges w_m).getD j 0 ≤ (binEdges w_TRES).getD (b + 1) 0 ∧
  (binEdges w_TRES).getD b 0 ≤ (binEdges w_m).getD (j + 1) 0

/-- The left boundary weight pending when the scan starts hunting for target
edge `k` (`τ` maps each target-edge index to the first source-edge index
strictly past it). -/
def dsLw (E P : List ℚ) (τ : ℕ → ℕ) (k : ℕ) : ℚ :=
  (P.getD (τ (k - 1)) 0 - E.getD (k - 1) 0) /
    (P.getD (τ (k - 1)) 0 - P.getD (τ (k - 1) - 1) 0)

/-- The right boundary weight computed at the trigger for target edge `k`. -/
def dsRw (E P : List ℚ) (τ : ℕ → ℕ) (k : ℕ) : ℚ :=
  (E.getD k 0 - P.getD (τ k - 1) 0) / (P.getD (τ k) 0 - P.getD (τ k - 1) 0)

/-- The weight vector emitted at the trigger for target edge `k`. -/
def dsWs (E P : List ℚ) (τ : ℕ → ℕ) (k : ℕ) : List ℚ :=
  ((List.replicate (τ k - τ (k - 1) + 1) (1 : ℚ)).set 0 (dsLw E P τ k)).set
    (τ k - τ (k - 1)) (dsRw E P τ k)

/-- The source-flux window averaged at the trigger for target edge `k`. -/
def dsWin (f_m : List ℚ) (τ : ℕ → ℕ) (k : ℕ) : List ℚ :=
  pySlice f_m ((τ (k - 1) : ℤ) - 1) (τ k)

/-- The average emitted into `out_flux[k-1]`. -/
def dsAvg (f_m E P : List ℚ) (τ : ℕ → ℕ) (k : ℕ) : ℚ :=
  (List.zipWith (· * ·) (dsWs E P τ k) (dsWin f_m τ k)).sum / (dsWs E P τ k).sum

/-- The loop state just before the scan hunts for target edge `k`
(`1 ≤ k ≤ m + 1`; at `k = m + 1` the loop has broken). -/
def dsSt (f_m E P : List ℚ) (τ : ℕ → ℕ) (m : ℕ) (k : ℕ) : DsState :=
  ⟨(List.range (k - 1)).map (fun b => dsAvg f_m E P τ (b + 1)), k,
   (τ (k - 1) : ℤ) - 1, dsLw E P τ k, decide (m < k)⟩

theorem npDeleteAux_mem {α : Type} {idxs : List ℕ} {a : α} :
    ∀ {s : ℕ} {l : List α}, a ∈ npDeleteAux idxs s l ↔
      ∃ k, ∃ h : k < l.length, l.get ⟨k, h⟩ = a ∧ (s + k) ∉ idxs := by
  intro s l
  induction l generalizing s with
  | nil => simp [npDeleteAux]
  | cons b t ih =>
    by_cases hs : s ∈ idxs
    · rw [npDeleteAux, if_pos hs]
      constructor
      · intro h
        obtain ⟨k, hk, hget, hnot⟩ := ih.mp h
        exact ⟨k + 1, by simpa using Nat.succ_lt_succ hk, by simpa using hget, by
          simpa [Nat.add_comm, Nat.add_left_comm] using hnot⟩
      · rintro ⟨k, hk, hget, hnot⟩
        cases k with
        | zero => exact absurd hs (by simpa using hnot)
        | succ k' =>
          exact ih.mpr ⟨k', by simpa using Nat.lt_of_succ_lt_succ hk,
            by simpa using hget, by simpa [Nat.add_comm, Nat.add_left_comm] using hnot⟩
    · rw [npDeleteAux, if_neg hs]
      constructor
      · intro h
        rcases List.mem_cons.mp h with h | h
        · exact ⟨0, by simp, by simpa using h.symm, by simpa using hs⟩
        · obtain ⟨k, hk, hget, hnot⟩ := ih.mp h
          exact ⟨k + 1, by simpa using Nat.succ_lt_succ hk, by simpa using hget, by
            simpa [Nat.add_comm, Nat.add_left_comm] using hnot⟩
      · rintro ⟨k, hk, hget, hnot⟩
        cases k with
        | zero => exact List.mem_cons.mpr (Or.inl (by simpa using hget.symm))
        | succ k' =>
          exact List.mem_cons.mpr (Or.inr (ih.mpr ⟨k', by simpa using Nat.lt_of_succ_lt_succ hk,
            by simpa using hget, by simpa [Nat.add_comm, Nat.add_left_comm] using hnot⟩))

theorem gridLoop_invalid_mem {κ : Type}
    {load : List ℚ → Option (List ℚ × List (String × String))}
    {transform : List ℚ → List ℚ} {keyName : List ℚ → κ} {j : ℕ} :
    ∀ {s : ℕ} {l : List (List ℚ)}, j ∈ (gridLoop load transform keyName s l).1 ↔
      ∃ k, ∃ h : k < l.length, j = s + k ∧ load (l.get ⟨k, h⟩) = none := by
  intro s l
  induction l generalizing s with
  | nil => simp [gridLoop]
  | cons p t ih =>
    rw [gridLoop]
    cases hl : load p with
    | none =>
      simp only []
      constructor
      · intro h
        rcases List.mem_cons.mp h with h | h
        · exact ⟨0, by simp, by simpa using h, by simpa using hl⟩
        · obtain ⟨k, hk, hj, hnone⟩ := ih.mp h
          exact ⟨k + 1, by simpa using Nat.succ_lt_succ hk,
            by omega, by simpa using hnone⟩
      · rintro ⟨k, hk, hj, hnone⟩
        cases k with
        | zero => exact List.mem_cons.mpr (Or.inl (by omega))
        | succ k' =>
          exact List.mem_cons.mpr (Or.inr (ih.mpr ⟨k', by simpa using Nat.lt_of_succ_lt_succ hk,
            by omega, by simpa using hnone⟩))
    | some fh =>
      simp only []
      constructor
      · intro h
        obtain ⟨k, hk, hj, hnone⟩ := ih.mp h
        exact ⟨k + 1, by simpa using Nat.succ_lt_succ hk, by omega, by simpa using hnone⟩
      · rintro ⟨k, hk, hj, hnone⟩
        cases k with
        | zero =>
          exfalso
          simp only [List.get] at hnone
          rw [hl] at hnone
          exact Option.some_ne_none _ hnone
        | succ k' =>
          exact ih.mpr ⟨k', by simpa using Nat.lt_of_succ_lt_succ hk, by omega,
            by simpa using hnone⟩

theorem gridLoop_flux_mem {κ : Type}
    {load : List ℚ → Option (List ℚ × List (String × String))}
    {transform : List ℚ → List ℚ} {keyName : List ℚ → κ} {e : FluxEntry κ} :
    ∀ {s : ℕ} {l : List (List ℚ)}, e ∈ (gridLoop load transform keyName s l).2 ↔
      ∃ p ∈ l, ∃ fh, load p = some fh ∧
        e = ⟨keyName p, transform fh.1,
             fh.2.filter (fun kv => !(kv.1 == "") && !(kv.2 == ""))⟩ := by
  intro s l
  induction l generalizing s with
  | nil => simp [gridLoop]
  | cons p t ih =>
    rw [gridLoop]
    cases hl : load p with
    | none =>
      simp only []
      rw [ih]
      constructor
      · rintro ⟨q, hq, fh, hfh, he⟩
        exact ⟨q, List.mem_cons.mpr (Or.inr hq), fh, hfh, he⟩
      · rintro ⟨q, hq, fh, hfh, he⟩
        rcases List.mem_cons.mp hq with rfl | hq
        · rw [hl] at hfh; exact absurd hfh (by simp)
        · exact ⟨q, hq, fh, hfh, he⟩
    | some fh₀ =>
      simp only []
      constructor
      · intro h
        rcases List.mem_cons.mp h with h | h
        · exact ⟨p, List.mem_cons_self p t, fh₀, hl, h⟩
        · obtain ⟨q, hq, fh, hfh, he⟩ := ih.mp h
          exact ⟨q, List.mem_cons.mpr (Or.inr hq), fh, hfh, he⟩
      · rintro ⟨q, hq, fh, hfh, he⟩
        rcases List.mem_cons.mp hq with rfl | hq
        · rw [hl] at hfh
          cases hfh
          exact List.mem_cons.mpr (Or.inl he)
        · exact List.mem_cons.mpr (Or.inr (ih.mpr ⟨q, hq, fh, hfh, he⟩))

/-- C1: during `process_grid`, a parameter combination whose raw load fails with
the not-found condition is recorded and skipped while the rest are processed:
after the build it is absent from `pars` and from the `flux` collection, and
every combination that loaded successfully has a row in `pars` and a keyed entry
in `flux`. -/
theorem processGrid_excluded_invariant {κ : Type}
    (load : List ℚ → Option (List ℚ × List (String × String)))
    (transform : List ℚ → List ℚ) (keyName : List ℚ → κ)
    (points : List (List ℚ)) (hinj : Function.Injective keyName)
    (p : List ℚ) (hp : p ∈ cartProduct points) :
    (load p = none →
      p ∉ (processGrid load transform keyName points).pars ∧
      ∀ e ∈ (processGrid load transform keyName points).flux, e.key ≠ keyName p) ∧
    (∀ fh, load p = some fh →
      p ∈ (processGrid load transform keyName points).pars ∧
      ∃ e ∈ (processGrid load transform keyName points).flux, e.key = keyName p) := by
  constructor
  · intro hnone
    constructor
    · intro hmem
      obtain ⟨k, hk, hget, hnot⟩ := npDeleteAux_mem.mp hmem
      exact hnot (gridLoop_invalid_mem.mpr ⟨k, hk, rfl, by rw [hget, hnone]⟩)
    · intro e he hkey
      obtain ⟨q, _, fh, hfh, rfl⟩ := gridLoop_flux_mem.mp he
      have : q = p := hinj hkey
      rw [this, hnone] at hfh
      exact Option.some_ne_none _ hfh.symm
  · intro fh hsome
    obtain ⟨k, hget⟩ := List.mem_iff_get.mp hp
    constructor
    · refine npDeleteAux_mem.mpr ⟨k.1, k.2, hget, fun hbad => ?_⟩
      obtain ⟨k', hk', heq, hnone⟩ := gridLoop_invalid_mem.mp hbad
      have hkk : k' = k.1 := by omega
      subst hkk
      have hgk : (cartProduct points).get ⟨k.1, hk'⟩ = p := hget
      rw [hgk, hsome] at hnone
      exact Option.some_ne_none _ hnone
    · exact ⟨⟨keyName p, transform fh.1,
        fh.2.filter (fun kv => !(kv.1 == "") && !(kv.2 == ""))⟩,
        gridLoop_flux_mem.mpr ⟨p, hp, fh, hsome, rfl⟩, rfl⟩

/-- Witness for C1 on a concrete two-axis grid: the load of `[1, 3]` fails,
every other combination succeeds. -/
theorem processGrid_excluded_invariant_witness :
    (fun q : List ℚ => if q = [1, 3] then none else some (q, [("A", "B")])) [1, 3] = none ∧
    [1, 3] ∉ (processGrid
        (fun q : List ℚ => if q = [1, 3] then none else some (q, [("A", "B")]))
        id id [[1, 2], [3]]).pars := by
  have h := (processGrid_excluded_invariant
    (fun q : List ℚ => if q = [1, 3] then none else some (q, [("A", "B")]))
    id id [[1, 2], [3]] (fun _ _ h => h) [1, 3] (by decide)).1 (by decide)
  exact ⟨by decide, h.1⟩

/-- C3: the claim (and the reader's own docstring) promise `GridError` for an
absent key, but the code raises the bare `KeyError` of the mapping lookup: on a
concrete archive holding only the key `[6000, 4, 0]`, loading the absent key
`[6100, 4, 0]` produces `KeyError`, not `GridError`. -/
theorem hdf5InterfaceLoadFlux_missing_key_is_keyError :
    hdf5InterfaceLoadFlux [([6000, 4, 0], [1, 2, 3])] id none ([6100, 4, 0] : List ℚ) =
      .error .keyError ∧
    hdf5InterfaceLoadFlux [([6000, 4, 0], [1, 2, 3])] id none ([6100, 4, 0] : List ℚ) ≠
      .error .gridError := by
  constructor
  · decide
  · decide

/-- The general form of C3's observed behaviour: whenever the formatted key is
absent from the `flux` group, `load_flux` raises `KeyError`. -/
theorem hdf5InterfaceLoadFlux_missing_key {κ : Type} [DecidableEq κ]
    (fluxGroup : List (κ × List ℚ)) (keyName : List ℚ → κ)
    (ind : Option (ℕ × ℕ)) (parameters : List ℚ)
    (habsent : fluxGroup.lookup (keyName parameters) = none) :
    hdf5InterfaceLoadFlux fluxGroup keyName ind parameters = .error .keyError := by
  unfold hdf5InterfaceLoadFlux
  rw [habsent]

/-- Witness for `hdf5InterfaceLoadFlux_missing_key` at a concrete archive. -/
theorem hdf5InterfaceLoadFlux_missing_key_witness :
    hdf5InterfaceLoadFlux [([6000, 4, 0], [1, 2, 3])] id (some (0, 2)) ([5000, 4, 0] : List ℚ) =
      .error .keyError :=
  hdf5InterfaceLoadFlux_missing_key _ _ _ _ (by decide)

set_option maxRecDepth 100000 in
/-- C2 counterexample: the query point `(3000, 3)` is strictly outside the
convex hull of the stored grid (every stored temperature exceeds 3000), yet the
linear interpolator of `flux_interpolator_hdf5` does not fail with
`InterpolationError`: it silently returns the hard-coded fallback vector of
ones (`fill_value=1.`). -/
theorem fluxInterpolatorHdf5_no_interpolationError :
    ((fluxInterpolatorHdf5 (fun _ _ => [0, 0, 0]) 3 (fun _ => [0, 0, 0])).points.all
      (fun p => 3000 < p.1)) = true ∧
    (fluxInterpolatorHdf5 (fun _ _ => [0, 0, 0]) 3 (fun _ => [0, 0, 0])).query (3000, 3) =
      .ok [1, 1, 1] ∧
    (fluxInterpolatorHdf5 (fun _ _ => [0, 0, 0]) 3 (fun _ => [0, 0, 0])).query (3000, 3) ≠
      .error .interpolationError := by
  refine ⟨by decide, by decide, by decide⟩

/-- C2 as amended: for every query strictly outside the convex hull of the
stored points, the linear interpolator built by `flux_interpolator_hdf5`
returns the hard-coded fallback vector of ones instead of failing; the fallback
is a silent default of the construction, not a caller opt-in. -/
theorem fluxInterpolatorHdf5_outside_hull_returns_fill
    (LIB : ℕ → ℕ → List ℚ) (nWave : ℕ) (tri : ℚ × ℚ → List ℚ) (q : ℚ × ℚ)
    (hout : inProductHull (fluxInterpolatorHdf5 LIB nWave tri).points q = false) :
    (fluxInterpolatorHdf5 LIB nWave tri).query q = .ok (List.replicate nWave 1) := by
  unfold LinearNDInterp.query
  rw [hout]
  rfl

set_option maxRecDepth 100000 in
/-- Witness for `fluxInterpolatorHdf5_outside_hull_returns_fill` at the
concrete outside query `(8000, 6)`. -/
theorem fluxInterpolatorHdf5_outside_hull_returns_fill_witness :
    (fluxInterpolatorHdf5 (fun _ _ => [2, 2]) 2 (fun _ => [2, 2])).query (8000, 6) =
      .ok (List.replicate 2 1) :=
  fluxInterpolatorHdf5_outside_hull_returns_fill _ _ _ _ (by decide)

theorem zip_self_map {α β : Type} (f : α → β) :
    ∀ l : List α, l.zip (l.map f) = l.map (fun a => (a, f a))
  | [] => rfl
  | a :: t => by simp [zip_self_map f t]

theorem dist2_nonneg (a b : ℚ × ℚ) : 0 ≤ dist2 a b :=
  add_nonneg (sq_nonneg _) (sq_nonneg _)

theorem dist2_eq_zero {a b : ℚ × ℚ} (h : dist2 a b = 0) : b = a := by
  unfold dist2 at h
  have h1 : (a.1 - b.1) ^ 2 = 0 :=
    le_antisymm (by nlinarith [sq_nonneg (a.2 - b.2)]) (sq_nonneg _)
  have h2 : (a.2 - b.2) ^ 2 = 0 := by linarith
  have e1 : a.1 = b.1 := by
    have := pow_eq_zero_iff (n := 2) (by norm_num) |>.mp h1
    linarith [sub_eq_zero.mp this]
  have e2 : a.2 = b.2 := by
    have := pow_eq_zero_iff (n := 2) (by norm_num) |>.mp h2
    linarith [sub_eq_zero.mp this]
  exact Prod.ext e1.symm e2.symm

theorem nearestQuery_spec (points : List (ℚ × ℚ)) (values : List (List ℚ))
    (q : ℚ × ℚ) (hne : points.zip values ≠ []) :
    ∃ pv ∈ points.zip values, nearestQuery points values q = pv.2 ∧
      ∀ b ∈ points.zip values, dist2 q pv.1 ≤ dist2 q b.1 := by
  cases hpv : (points.zip values).argmin (fun pv => dist2 q pv.1) with
  | none => exact absurd (List.argmin_eq_none.mp hpv) hne
  | some pv =>
    refine ⟨pv, List.argmin_mem hpv, ?_, fun b hb =>
      @List.le_of_mem_argmin ((ℚ × ℚ) × List ℚ) ℚ _ (fun pv => dist2 q pv.1)
        (points.zip values) b pv hb (Option.mem_def.mpr hpv)⟩
    unfold nearestQuery
    rw [hpv]

/-- C9: the nearest-method interpolator of `flux_interpolator`, queried at a
point exactly equal to a stored parameter row, returns exactly that row's
stored flux vector; and for any query at all it returns the flux vector of some
stored row (it is total and never fails). -/
theorem fluxInterpolator_exact_and_total
    (T_list logg_list : List ℚ) (loadFluxNpy : ℚ → ℚ → List ℚ)
    (q : ℚ × ℚ) (hq : q ∈ T_list.zip logg_list) :
    fluxInterpolator T_list logg_list loadFluxNpy q = loadFluxNpy q.1 q.2 ∧
    ∀ q' : ℚ × ℚ, ∃ p ∈ T_list.zip logg_list,
      fluxInterpolator T_list logg_list loadFluxNpy q' = loadFluxNpy p.1 p.2 := by
  have hmap : (T_list.zip logg_list).zip
      ((T_list.zip logg_list).map (fun p => loadFluxNpy p.1 p.2)) =
      (T_list.zip logg_list).map (fun p => (p, loadFluxNpy p.1 p.2)) :=
    zip_self_map _ _
  have hne : (T_list.zip logg_list).zip
      ((T_list.zip logg_list).map (fun p => loadFluxNpy p.1 p.2)) ≠ [] := by
    rw [hmap]
    intro hnil
    rw [List.map_eq_nil_iff] at hnil
    rw [hnil] at hq
    exact List.not_mem_nil q hq
  constructor
  · obtain ⟨pv, hpvmem, hres, hmin⟩ := nearestQuery_spec _ _ q hne
    rw [hmap] at hpvmem
    obtain ⟨p, hp, rfl⟩ := List.mem_map.mp hpvmem
    have hqmem : (q, loadFluxNpy q.1 q.2) ∈ (T_list.zip logg_list).zip
        ((T_list.zip logg_list).map (fun p => loadFluxNpy p.1 p.2)) := by
      rw [hmap]
      exact List.mem_map.mpr ⟨q, hq, rfl⟩
    have hle := hmin _ hqmem
    have hzero : dist2 q p = 0 := le_antisymm (by simpa [dist2] using hle) (dist2_nonneg _ _)
    have hpq : p = q := dist2_eq_zero hzero
    rw [fluxInterpolator, hres, hpq]
  · intro q'
    obtain ⟨pv, hpvmem, hres, _⟩ := nearestQuery_spec _ _ q' hne
    rw [hmap] at hpvmem
    obtain ⟨p, hp, rfl⟩ := List.mem_map.mp hpvmem
    exact ⟨p, hp, by rw [fluxInterpolator, hres]⟩

/-- Witness for C9 on a concrete two-point grid: querying exactly at the stored
point `(6000, 4)` returns that point's flux vector bit-for-bit. -/
theorem fluxInterpolator_exact_and_total_witness :
    fluxInterpolator [5000, 6000] [3, 4] (fun t g => [t + g]) (6000, 4) = [6004] := by
  have h := (fluxInterpolator_exact_and_total [5000, 6000] [3, 4] (fun t g => [t + g])
    (6000, 4) (by decide)).1
  norm_num at h
  exact h

theorem waveLoop_cons (vel endv : ℝ) (n : ℕ) (lam : ℝ) :
    ∃ t, waveLoop vel endv n lam = lam :: t := by
  cases n with
  | zero => exact ⟨[], rfl⟩
  | succ m =>
    rw [waveLoop]
    by_cases h : lam < endv
    · exact ⟨waveLoop vel endv m (lam * vel), if_pos h⟩
    · exact ⟨[], if_neg h⟩

theorem waveLoop_ne_nil (vel endv : ℝ) (n : ℕ) (lam : ℝ) :
    waveLoop vel endv n lam ≠ [] := by
  obtain ⟨t, ht⟩ := waveLoop_cons vel endv n lam
  rw [ht]
  exact List.cons_ne_nil _ _

theorem waveLoop_sign (vel endv : ℝ) (hvel : 0 < vel) :
    ∀ (n : ℕ) (lam : ℝ), (0 < lam → ∀ x ∈ waveLoop vel endv n lam, 0 < x) ∧
      (lam < 0 → ∀ x ∈ waveLoop vel endv n lam, x < 0)
  | 0, lam => by
    constructor <;> intro h x hx <;> rw [waveLoop] at hx <;>
      rcases List.mem_singleton.mp hx with rfl <;> exact h
  | n + 1, lam => by
    constructor <;> intro h x hx <;> rw [waveLoop] at hx
    · by_cases hcond : lam < endv
      · rw [if_pos hcond] at hx
        rcases List.mem_cons.mp hx with rfl | hx
        · exact h
        · exact (waveLoop_sign vel endv hvel n (lam * vel)).1 (mul_pos h hvel) x hx
      · rw [if_neg hcond] at hx
        rcases List.mem_singleton.mp hx with rfl
        exact h
    · by_cases hcond : lam < endv
      · rw [if_pos hcond] at hx
        rcases List.mem_cons.mp hx with rfl | hx
        · exact h
        · exact (waveLoop_sign vel endv hvel n (lam * vel)).2 (mul_neg_of_neg_of_pos h hvel) x hx
      · rw [if_neg hcond] at hx
        rcases List.mem_singleton.mp hx with rfl
        exact h

theorem waveLoop_chain_ratio (vel endv : ℝ) :
    ∀ (n : ℕ) (lam : ℝ), (waveLoop vel endv n lam).Chain' (fun a b => b = a * vel)
  | 0, _ => List.chain'_singleton _
  | n + 1, lam => by
    rw [waveLoop]
    by_cases h : lam < endv
    · rw [if_pos h]
      refine List.chain'_cons'.mpr ⟨?_, waveLoop_chain_ratio vel endv n (lam * vel)⟩
      intro y hy
      obtain ⟨t, ht⟩ := waveLoop_cons vel endv n (lam * vel)
      rw [ht] at hy
      simp only [List.head?_cons, Option.mem_def, Option.some.injEq] at hy
      rw [← hy]
    · rw [if_neg h]
      exact List.chain'_singleton _

theorem waveLoop_chain_lt (vel endv : ℝ) (hvel : 1 < vel) :
    ∀ (n : ℕ) (lam : ℝ), 0 < lam → (waveLoop vel endv n lam).Chain' (· < ·)
  | 0, _, _ => List.chain'_singleton _
  | n + 1, lam, hlam => by
    rw [waveLoop]
    by_cases h : lam < endv
    · rw [if_pos h]
      refine List.chain'_cons'.mpr ⟨?_, waveLoop_chain_lt vel endv hvel n (lam * vel)
        (mul_pos hlam (lt_trans one_pos hvel))⟩
      intro y hy
      obtain ⟨t, ht⟩ := waveLoop_cons vel endv n (lam * vel)
      rw [ht] at hy
      simp only [List.head?_cons, Option.mem_def, Option.some.injEq] at hy
      rw [← hy]
      nlinarith
    · rw [if_neg h]
      exact List.chain'_singleton _

theorem waveLoop_dropLast_lt (vel endv : ℝ) :
    ∀ (n : ℕ) (lam : ℝ), ∀ x ∈ (waveLoop vel endv n lam).dropLast, x < endv
  | 0, lam => by
    intro x hx
    rw [waveLoop] at hx
    simp at hx
  | n + 1, lam => by
    intro x hx
    rw [waveLoop] at hx
    by_cases h : lam < endv
    · rw [if_pos h] at hx
      obtain ⟨t, ht⟩ := waveLoop_cons vel endv n (lam * vel)
      rw [ht, List.dropLast_cons₂, ← ht] at hx
      rcases List.mem_cons.mp hx with rfl | hx
      · exact h
      · exact waveLoop_dropLast_lt vel endv n (lam * vel) x hx
    · rw [if_neg h] at hx
      simp at hx

theorem waveLoop_filter_nonzero (vel endv : ℝ) {n : ℕ} {lam : ℝ}
    (hall : ∀ x ∈ waveLoop vel endv n lam, x ≠ 0) :
    (waveLoop vel endv n lam).filter (fun x => decide (x ≠ 0)) =
      waveLoop vel endv n lam :=
  List.filter_eq_self.mpr (fun a ha => decide_eq_true (hall a ha))

theorem waveLoop_len_cap (vel endv : ℝ) (hvel0 : 0 < vel) (hvel1 : vel ≤ 1) :
    ∀ (n : ℕ) (lam : ℝ), 0 < lam → lam < endv →
      (waveLoop vel endv n lam).length = n + 1
  | 0, _, _, _ => rfl
  | n + 1, lam, hlam, hle => by
    rw [waveLoop, if_pos hle, List.length_cons,
      waveLoop_len_cap vel endv hvel0 hvel1 n (lam * vel) (mul_pos hlam hvel0)
        (lt_of_le_of_lt (by nlinarith) hle)]

/-- The loop-exit identity shared by the C5 theorems: with `endv ≤ start` the
while-condition fails immediately, the buffer holds `start` alone, and dropping
the last element leaves the empty grid. -/
theorem create_wave_grid_of_ge (v start endv : ℝ) (h : endv ≤ start) :
    create_wave_grid v start endv = [] := by
  unfold create_wave_grid
  have hfuel : waveGridSize - 1 = 8999998 + 1 := by norm_num [waveGridSize]
  rw [hfuel, waveLoop, if_neg (not_lt.mpr h)]
  by_cases hz : start = 0
  · rw [hz]
    simp
  · rw [show ([start].filter (fun x => decide (x ≠ 0))) = [start] from
      List.filter_eq_self.mpr (fun a ha => by
        rcases List.mem_singleton.mp ha with rfl
        exact decide_eq_true hz)]
    rfl

/-- C5 counterexample: at `v = 1, start = 2, end = 1` (so `start >= end`) the
builder does not fail with `RangeError` — no such exception exists anywhere in
the source and the function validates nothing; it returns a grid, namely the
empty one. -/
theorem create_wave_grid_start_ge_end_returns_grid :
    create_wave_grid 1 2 1 = [] :=
  create_wave_grid_of_ge 1 2 1 (by norm_num)

/-- C5 as amended: the builder never fails (it is a total function with no
validation and no `RangeError` anywhere in the source): for `start >= end` it
returns the empty grid, and for `dv <= 0` (with `-c < dv`, `0 < start < end`)
it still returns a grid — the full 9-million-slot buffer, nonempty. -/
theorem create_wave_grid_no_rangeError (v start endv : ℝ) :
    (endv ≤ start → create_wave_grid v start endv = []) ∧
    (-c_kms < v → v ≤ 0 → 0 < start → start < endv →
      create_wave_grid v start endv ≠ []) := by
  constructor
  · exact create_wave_grid_of_ge v start endv
  · intro hvc hv0 hs hse
    have hden : 0 < c_kms - v := by
      have : (0:ℝ) < c_kms := by norm_num [c_kms]
      linarith
    have hnum : 0 < c_kms + v := by linarith
    have hvel0 : 0 < velFactor v := Real.sqrt_pos.mpr (div_pos hnum hden)
    have hvel1 : velFactor v ≤ 1 := Real.sqrt_le_one.mpr (by
      rw [div_le_one hden]
      linarith)
    unfold create_wave_grid
    rw [waveLoop_filter_nonzero _ _ (fun x hx =>
      ne_of_gt ((waveLoop_sign (velFactor v) endv hvel0 _ start).1 hs x hx))]
    intro hnil
    have hlen := congrArg List.length hnil
    rw [List.length_dropLast,
      waveLoop_len_cap (velFactor v) endv hvel0 hvel1 _ start hs hse] at hlen
    simp [waveGridSize] at hlen

/-- Witness for `create_wave_grid_no_rangeError`: both clauses instantiated,
`(v, start, end) = (1, 2, 1)` for the first and `(-1, 1, 2)` for the second. -/
theorem create_wave_grid_no_rangeError_witness :
    create_wave_grid 1 2 1 = [] ∧ create_wave_grid (-1) 1 2 ≠ [] :=
  ⟨(create_wave_grid_no_rangeError 1 2 1).1 (by norm_num),
   (create_wave_grid_no_rangeError (-1) 1 2).2
     (by norm_num [c_kms]) (by norm_num) (by norm_num) (by norm_num)⟩

theorem velFactor_one_gt : 1 < velFactor 1 := by
  have h1 : (1:ℝ) < (c_kms + 1) / (c_kms - 1) := by
    rw [lt_div_iff₀ (by norm_num [c_kms])]
    norm_num [c_kms]
  calc (1:ℝ) = Real.sqrt 1 := (Real.sqrt_one).symm
    _ < velFactor 1 := Real.sqrt_lt_sqrt (by norm_num) h1

/-- C4 counterexample: the claim quantifies over every `dv > 0` and
`start < end`, but at `dv = 1, start = -1, end = 1` the code returns a strictly
DECREASING grid (`-1, -vel, -vel², …`): the first two retained entries already
violate strict increase. -/
theorem create_wave_grid_not_increasing :
    ¬ (create_wave_grid 1 (-1) 1).Chain' (· < ·) := by
  have hvel := velFactor_one_gt
  have hvel0 : 0 < velFactor 1 := lt_trans one_pos hvel
  unfold create_wave_grid
  have hfuel : waveGridSize - 1 = 8999997 + 1 + 1 := by norm_num [waveGridSize]
  rw [hfuel]
  rw [waveLoop, if_pos (by norm_num : (-1:ℝ) < 1)]
  rw [waveLoop, if_pos (by nlinarith : (-1:ℝ) * velFactor 1 < 1)]
  have hallneg : ∀ x ∈ ((-1:ℝ) ::
      (-1 * velFactor 1) :: waveLoop (velFactor 1) 1 8999997 (-1 * velFactor 1 * velFactor 1)),
      x < 0 := by
    intro x hx
    rcases List.mem_cons.mp hx with rfl | hx
    · norm_num
    rcases List.mem_cons.mp hx with rfl | hx
    · nlinarith
    · exact (waveLoop_sign (velFactor 1) 1 hvel0 8999997 (-1 * velFactor 1 * velFactor 1)).2
        (by nlinarith) x hx
  rw [List.filter_eq_self.mpr (fun a ha => decide_eq_true (ne_of_lt (hallneg a ha)))]
  obtain ⟨u, hu⟩ := waveLoop_cons (velFactor 1) 1 8999997 (-1 * velFactor 1 * velFactor 1)
  rw [hu, List.dropLast_cons₂, List.dropLast_cons₂]
  intro hchain
  have hpair := (List.chain'_cons.mp hchain).1
  nlinarith

/-- C4 as amended: for `0 < dv < c` and `0 < start < end`, the grid has first
element `start`, is strictly increasing, has consecutive ratio exactly
`sqrt((c+dv)/(c-dv))` (the float ratio satisfies this to rounding), and every
element — in particular the last — is strictly below `end`. -/
theorem create_wave_grid_props (v start endv : ℝ)
    (hv0 : 0 < v) (hvc : v < c_kms) (hs : 0 < start) (hse : start < endv) :
    (create_wave_grid v start endv).head? = some start ∧
    (create_wave_grid v start endv).Chain' (· < ·) ∧
    (create_wave_grid v start endv).Chain' (fun a b => b = a * velFactor v) ∧
    ∀ x ∈ create_wave_grid v start endv, x < endv := by
  have hden : 0 < c_kms - v := by linarith
  have hnum : 0 < c_kms + v := by linarith
  have hvel : 1 < velFactor v := by
    have h1 : (1:ℝ) < (c_kms + v) / (c_kms - v) := by
      rw [lt_div_iff₀ hden]
      linarith
    calc (1:ℝ) = Real.sqrt 1 := (Real.sqrt_one).symm
      _ < velFactor v := Real.sqrt_lt_sqrt (by norm_num) h1
  have hvel0 : 0 < velFactor v := lt_trans one_pos hvel
  have hfilter : ((waveLoop (velFactor v) endv (waveGridSize - 1) start).filter
      (fun x => decide (x ≠ 0))) = waveLoop (velFactor v) endv (waveGridSize - 1) start :=
    waveLoop_filter_nonzero _ _ (fun x hx =>
      ne_of_gt ((waveLoop_sign (velFactor v) endv hvel0 _ start).1 hs x hx))
  refine ⟨?_, ?_, ?_, ?_⟩
  · unfold create_wave_grid
    rw [hfilter]
    have hfuel : waveGridSize - 1 = 8999998 + 1 := by norm_num [waveGridSize]
    rw [hfuel, waveLoop, if_pos hse]
    obtain ⟨u, hu⟩ := waveLoop_cons (velFactor v) endv 8999998 (start * velFactor v)
    rw [hu, List.dropLast_cons₂]
    rfl
  · unfold create_wave_grid
    rw [hfilter]
    exact List.Chain'.prefix (waveLoop_chain_lt (velFactor v) endv hvel _ start hs)
      ( List.dropLast_prefix _)
  · unfold create_wave_grid
    rw [hfilter]
    exact List.Chain'.prefix (waveLoop_chain_ratio (velFactor v) endv _ start)
      ( List.dropLast_prefix _)
  · intro x hx
    unfold create_wave_grid at hx
    rw [hfilter] at hx
    exact waveLoop_dropLast_lt (velFactor v) endv _ start x hx

/-- Witness for `create_wave_grid_props` at `(dv, start, end) = (1, 1, 2)`. -/
theorem create_wave_grid_props_witness :
    (create_wave_grid 1 1 2).head? = some 1 ∧
    (create_wave_grid 1 1 2).Chain' (· < ·) ∧
    (create_wave_grid 1 1 2).Chain' (fun a b => b = a * velFactor 1) ∧
    ∀ x ∈ create_wave_grid 1 1 2, x < 2 :=
  create_wave_grid_props 1 1 2 (by norm_num) (by norm_num [c_kms])
    (by norm_num) (by norm_num)

/-- C7: if construction succeeds then — with an instrument — the stored `dv` is
`FWHM / oversampling` (for the spec's end-to-end scenario instrument with
FWHM = 45 this is 7.4 km/s, within the claimed tolerance), and — without an
instrument — the final grid is the native grid clipped strictly to the computed
window and the stored `dv` is the native spacing. -/
theorem hdf5CreatorInitGrids_dvFinal (wlNative : List ℝ) (dvNative : ℝ)
    (instrument : Option Instrument) (wlRange : Option (ℝ × ℝ)) (buffer : ℝ)
    (r : CreatorInit)
    (h : hdf5CreatorInitGrids wlNative dvNative instrument wlRange buffer = .ok r) :
    (∀ inst, instrument = some inst → r.dvFinal = inst.FWHM / inst.oversampling) ∧
    (instrument = some scenarioInstrument → |r.dvFinal - 7.4| ≤ 1 / 10) ∧
    (instrument = none →
      r.dvFinal = dvNative ∧
      r.wlFinal = wlNative.filter (fun w =>
        decide ((creatorWlBounds wlNative instrument wlRange buffer).1 < w ∧
                w < (creatorWlBounds wlNative instrument wlRange buffer).2))) := by
  unfold hdf5CreatorInitGrids at h
  by_cases hb : (creatorWlBounds wlNative instrument wlRange buffer).2 <
      (creatorWlBounds wlNative instrument wlRange buffer).1
  · rw [if_pos hb] at h
    exact absurd h (by simp)
  · rw [if_neg hb] at h
    have hinst : ∀ inst, instrument = some inst →
        r.dvFinal = inst.FWHM / inst.oversampling := by
      intro inst hi
      rw [hi] at h
      simp only [createLogLamGrid] at h
      have := (Except.ok.injEq _ _).mp h
      rw [← this]
    refine ⟨hinst, ?_, ?_⟩
    · intro hscen
      rw [hinst scenarioInstrument hscen]
      have : scenarioInstrument.FWHM / scenarioInstrument.oversampling = 7.4 := by
        unfold scenarioInstrument
        norm_num
      rw [this]
      norm_num
    · intro hnone
      rw [hnone] at h ⊢
      have := (Except.ok.injEq _ _).mp h
      rw [← this]
      exact ⟨rfl, rfl⟩

/-- Witness for `hdf5CreatorInitGrids_dvFinal`: a concrete construction with the
scenario instrument over the native grid `[1e4, 3e4]` and no user range. -/
theorem hdf5CreatorInitGrids_dvFinal_witness :
    hdf5CreatorInitGrids [1e4, 3e4] 2 (some scenarioInstrument) none 50 =
      .ok ⟨(createLogLamGrid 7.4 1e4 3e4).1, 7.4⟩ ∧
    |(7.4 : ℝ) - 7.4| ≤ 1 / 10 := by
  have hbounds : creatorWlBounds [1e4, 3e4] (some scenarioInstrument) none 50 =
      (1e4, 3e4) := by
    unfold creatorWlBounds scenarioInstrument
    norm_num
  have hok : hdf5CreatorInitGrids [1e4, 3e4] 2 (some scenarioInstrument) none 50 =
      .ok ⟨(createLogLamGrid 7.4 1e4 3e4).1, 7.4⟩ := by
    unfold hdf5CreatorInitGrids
    rw [hbounds]
    rw [if_neg (by norm_num)]
    have h45 : scenarioInstrument.FWHM / scenarioInstrument.oversampling = 7.4 := by
      unfold scenarioInstrument
      norm_num
    simp only [createLogLamGrid, h45]
  refine ⟨hok, ?_⟩
  exact (hdf5CreatorInitGrids_dvFinal [1e4, 3e4] 2 (some scenarioInstrument) none 50
    _ hok).2.1 rfl

theorem gauss_taper_sigma_zero (s : ℝ) : gauss_taper s 0 = 1 := by
  unfold gauss_taper
  norm_num

theorem gaussBroaden_sigma_zero (N : ℕ) [NeZero N] (d : ℝ) (f : ZMod N → ℝ)
    (hf : ∀ i, 0 ≤ f i) : gaussBroaden N d 0 f = f := by
  funext k
  unfold gaussBroaden
  have htap : (fun j => ZMod.dft (fun i => (f i : ℂ)) j *
      (gauss_taper (fftfreqZ N d j) 0 : ℂ)) = ZMod.dft (fun i => (f i : ℂ)) := by
    funext j
    rw [gauss_taper_sigma_zero]
    simp
  rw [htap, LinearEquiv.symm_apply_apply]
  simpa using abs_of_nonneg (hf k)

theorem rotTaper_zero_bin (N : ℕ) [NeZero N] (j1 : ℝ → ℝ) (vsini : ℝ) :
    rotTaper N j1 vsini 0 = 1 := by
  unfold rotTaper
  rw [if_pos rfl]

theorem ssJunk_ne_zero (N : ℕ) [NeZero N] (k : ZMod N) (hk : k ≠ 0) :
    ssJunk N k ≠ 0 := by
  unfold ssJunk fftfreqZ
  rw [if_neg hk]
  have hN : 0 < (N : ℝ) := by
    have := NeZero.pos N
    exact_mod_cast this
  have hval : 0 < k.val :=
    Nat.pos_of_ne_zero (fun h => hk ((ZMod.val_eq_zero k).mp h))
  have hvalN : k.val < N := ZMod.val_lt k
  by_cases hc : k.val < (N + 1) / 2
  · rw [if_pos hc]
    positivity
  · rw [if_neg hc]
    have : (k.val : ℝ) - N < 0 := by
      have : (k.val : ℝ) < N := by exact_mod_cast hvalN
      linarith
    intro hzero
    have h2 : (0:ℝ) < N * 2 := by linarith
    rw [div_eq_zero_iff] at hzero
    rcases hzero with h | h
    · linarith
    · linarith

theorem rotCubicBound (u : ℝ) (hne : u ≠ 0) (hu1 : |u| ≤ 1) :
    |3 * Real.sin u / (2 * u ^ 3) - 3 * Real.cos u / (2 * u ^ 2) - 1 / 2| ≤ |u| := by
  have h1 := Real.sin_bound hu1
  have h2 := Real.cos_bound hu1
  have hu0 : 0 < |u| := abs_pos.mpr hne
  have hnum : |Real.sin u - u * Real.cos u - u ^ 3 / 3| ≤ |u| ^ 4 * (10 / 96) := by
    have e : Real.sin u - u * Real.cos u - u ^ 3 / 3 =
        (Real.sin u - (u - u ^ 3 / 6)) + -(u * (Real.cos u - (1 - u ^ 2 / 2))) := by ring
    rw [e]
    have h3 : |u * (Real.cos u - (1 - u ^ 2 / 2))| ≤ |u| ^ 4 * (5 / 96) := by
      rw [abs_mul]
      calc |u| * |Real.cos u - (1 - u ^ 2 / 2)| ≤ |u| * (|u| ^ 4 * (5 / 96)) :=
            mul_le_mul_of_nonneg_left h2 (abs_nonneg u)
        _ ≤ 1 * (|u| ^ 4 * (5 / 96)) := mul_le_mul_of_nonneg_right hu1 (by positivity)
        _ = |u| ^ 4 * (5 / 96) := one_mul _
    calc |(Real.sin u - (u - u ^ 3 / 6)) + -(u * (Real.cos u - (1 - u ^ 2 / 2)))|
        ≤ |Real.sin u - (u - u ^ 3 / 6)| + |-(u * (Real.cos u - (1 - u ^ 2 / 2)))| :=
          abs_add _ _
      _ = |Real.sin u - (u - u ^ 3 / 6)| + |u * (Real.cos u - (1 - u ^ 2 / 2))| := by
          rw [abs_neg]
      _ ≤ |u| ^ 4 * (5 / 96) + |u| ^ 4 * (5 / 96) := add_le_add h1 h3
      _ = |u| ^ 4 * (10 / 96) := by ring
  have hBdiff : 3 * Real.sin u / (2 * u ^ 3) - 3 * Real.cos u / (2 * u ^ 2) - 1 / 2 =
      3 / (2 * u ^ 3) * (Real.sin u - u * Real.cos u - u ^ 3 / 3) := by
    field_simp
    ring
  rw [hBdiff, abs_mul]
  have habs3 : |3 / (2 * u ^ 3)| = 3 / (2 * |u| ^ 3) := by
    rw [abs_div, abs_mul, abs_pow]
    norm_num
  rw [habs3]
  calc 3 / (2 * |u| ^ 3) * |Real.sin u - u * Real.cos u - u ^ 3 / 3|
      ≤ 3 / (2 * |u| ^ 3) * (|u| ^ 4 * (10 / 96)) :=
        mul_le_mul_of_nonneg_left hnum (by positivity)
    _ = |u| * (30 / 192) * (|u| ^ 3 / |u| ^ 3) := by ring
    _ = |u| * (30 / 192) := by rw [div_self (by positivity), mul_one]
    _ ≤ |u| := by nlinarith [abs_nonneg u]

theorem tendsto_rotCubic :
    Filter.Tendsto (fun u => 3 * Real.sin u / (2 * u ^ 3) - 3 * Real.cos u / (2 * u ^ 2))
      (nhdsWithin 0 {x : ℝ | x ≠ 0}) (nhds (1 / 2)) := by
  have hdiff : Filter.Tendsto (fun u => 3 * Real.sin u / (2 * u ^ 3) -
      3 * Real.cos u / (2 * u ^ 2) - 1 / 2) (nhdsWithin 0 {x : ℝ | x ≠ 0}) (nhds 0) := by
    have h1 : ∀ᶠ u in nhdsWithin (0:ℝ) {x : ℝ | x ≠ 0}, u ∈ {x : ℝ | x ≠ 0} :=
      eventually_mem_nhdsWithin
    have h2 : ∀ᶠ u in nhdsWithin (0:ℝ) {x : ℝ | x ≠ 0}, |u| ≤ 1 := by
      refine Filter.Eventually.filter_mono nhdsWithin_le_nhds ?_
      have hball : Metric.ball (0:ℝ) 1 ∈ nhds (0:ℝ) := Metric.ball_mem_nhds _ one_pos
      filter_upwards [hball] with u hu
      rw [Metric.mem_ball, Real.dist_eq, sub_zero] at hu
      exact le_of_lt hu
    have hb : ∀ᶠ u in nhdsWithin (0:ℝ) {x : ℝ | x ≠ 0},
        ‖3 * Real.sin u / (2 * u ^ 3) - 3 * Real.cos u / (2 * u ^ 2) - 1 / 2‖ ≤ |u| := by
      filter_upwards [h1, h2] with u hu hu1
      rw [Real.norm_eq_abs]
      exact rotCubicBound u hu hu1
    have hg : Filter.Tendsto (fun u : ℝ => |u|)
        (nhdsWithin (0:ℝ) {x : ℝ | x ≠ 0}) (nhds 0) := by
      have : Filter.Tendsto (fun u : ℝ => |u|) (nhds 0) (nhds 0) := by
        simpa using continuous_abs.tendsto (0:ℝ)
      exact this.mono_left nhdsWithin_le_nhds
    exact squeeze_zero_norm' hb hg
  have := hdiff.add_const (1 / 2)
  simp only [zero_add] at this
  exact this.congr (fun u => by ring)

theorem rotTaper_tendsto (N : ℕ) [NeZero N] (j1 : ℝ → ℝ)
    (hj1 : Filter.Tendsto (fun x => j1 x / x) (nhdsWithin 0 {x : ℝ | x ≠ 0})
      (nhds (1 / 2)))
    (k : ZMod N) :
    Filter.Tendsto (fun v => rotTaper N j1 v k) (nhdsWithin 0 (Set.Ioi 0))
      (nhds 1) := by
  by_cases hk : k = 0
  · subst hk
    simp only [rotTaper_zero_bin]
    exact tendsto_const_nhds
  · have hs := ssJunk_ne_zero N k hk
    have hg : Filter.Tendsto (fun u => j1 u / u - 3 * Real.cos u / (2 * u ^ 2) +
        3 * Real.sin u / (2 * u ^ 3)) (nhdsWithin 0 {x : ℝ | x ≠ 0}) (nhds 1) := by
      have hsum := hj1.add tendsto_rotCubic
      have h12 : (1:ℝ) / 2 + 1 / 2 = 1 := by norm_num
      rw [h12] at hsum
      exact hsum.congr (fun u => by ring)
    have hub : Filter.Tendsto (fun v : ℝ => 2 * Real.pi * v * ssJunk N k)
        (nhdsWithin 0 (Set.Ioi 0)) (nhdsWithin 0 {x : ℝ | x ≠ 0}) := by
      rw [tendsto_nhdsWithin_iff]
      constructor
      · have hc : Continuous (fun v : ℝ => 2 * Real.pi * v * ssJunk N k) := by
          continuity
        have := hc.tendsto 0
        simp only [mul_zero, zero_mul] at this
        exact this.mono_left nhdsWithin_le_nhds
      · refine eventually_mem_nhdsWithin.mono (fun v hv => ?_)
        have hvpos : (0:ℝ) < v := hv
        exact mul_ne_zero (mul_ne_zero (mul_ne_zero two_ne_zero Real.pi_ne_zero)
          (ne_of_gt hvpos)) hs
    have hcomp := hg.comp hub
    refine hcomp.congr (fun v => ?_)
    simp only [Function.comp, rotTaper, if_neg hk]

theorem modelRotBroaden_tendsto (N : ℕ) [NeZero N] (j1 : ℝ → ℝ) (f : ZMod N → ℝ)
    (hf : ∀ i, 0 ≤ f i)
    (hj1 : Filter.Tendsto (fun x => j1 x / x) (nhdsWithin 0 {x : ℝ | x ≠ 0})
      (nhds (1 / 2)))
    (k : ZMod N) :
    Filter.Tendsto (fun v => modelRotBroaden N j1 v f k)
      (nhdsWithin 0 (Set.Ioi 0)) (nhds (f k)) := by
  have hsummand : ∀ j : ZMod N, Filter.Tendsto
      (fun v => ZMod.stdAddChar (j * k) •
        (ZMod.dft (fun i => ((f i : ℂ))) j * (rotTaper N j1 v j : ℂ)))
      (nhdsWithin 0 (Set.Ioi 0))
      (nhds (ZMod.stdAddChar (j * k) • (ZMod.dft (fun i => ((f i : ℂ))) j * 1))) := by
    intro j
    have hrot := rotTaper_tendsto N j1 hj1 j
    have hcast : Filter.Tendsto (fun v => ((rotTaper N j1 v j : ℝ) : ℂ))
        (nhdsWithin 0 (Set.Ioi 0)) (nhds ((1:ℝ) : ℂ)) :=
      (Complex.continuous_ofReal.tendsto 1).comp hrot
    rw [Complex.ofReal_one] at hcast
    exact (hcast.const_mul (ZMod.dft (fun i => ((f i : ℂ))) j)).const_smul _
  have hsum := tendsto_finset_sum Finset.univ (fun j _ => hsummand j)
  have houter := hsum.const_smul ((N : ℂ)⁻¹)
  have hval : (N : ℂ)⁻¹ • ∑ j : ZMod N, ZMod.stdAddChar (j * k) •
      (ZMod.dft (fun i => ((f i : ℂ))) j * 1) = ((f k : ℂ)) := by
    simp only [mul_one]
    rw [← ZMod.invDFT_apply]
    have : (ZMod.dft.symm (ZMod.dft (fun i => ((f i : ℂ))))) k = ((f k : ℂ)) := by
      rw [LinearEquiv.symm_apply_apply]
    exact this
  rw [hval] at houter
  have habs := (Complex.continuous_abs.tendsto ((f k : ℂ))).comp houter
  have hvalabs : Complex.abs ((f k : ℂ)) = f k := by
    rw [Complex.abs_ofReal]
    exact abs_of_nonneg (hf k)
  rw [hvalabs] at habs
  refine habs.congr (fun v => ?_)
  simp only [Function.comp]
  unfold modelRotBroaden
  rw [ZMod.invDFT_apply]

set_option maxHeartbeats 400000 in
/-- C8: the Fourier-domain broadening stages with kernel width tending to 0 are
the identity on any (nonnegative) flux vector: the Gaussian instrumental taper
at `sigma = 0` equals 1 at every frequency bin and the broadened flux equals
the input exactly; the rotational taper's zero-frequency bin is fixed to 1 for
every `v sin i`, and as `v sin i → 0⁺` the rotationally broadened flux tends to
the input at every bin.  `j1` is scipy's Bessel collaborator, assumed only to
satisfy the classical `j1(x)/x → 1/2` limit. -/
theorem broaden_zero_kernel_identity (N : ℕ) [NeZero N] (d : ℝ) (j1 : ℝ → ℝ)
    (f : ZMod N → ℝ) (hf : ∀ i, 0 ≤ f i)
    (hj1 : Filter.Tendsto (fun x => j1 x / x) (nhdsWithin 0 {x : ℝ | x ≠ 0})
      (nhds (1 / 2))) :
    (∀ s : ℝ, gauss_taper s 0 = 1) ∧
    gaussBroaden N d 0 f = f ∧
    (∀ vsini : ℝ, rotTaper N j1 vsini 0 = 1) ∧
    (∀ k : ZMod N, Filter.Tendsto (fun vsini => modelRotBroaden N j1 vsini f k)
      (nhdsWithin 0 (Set.Ioi 0)) (nhds (f k))) :=
  ⟨gauss_taper_sigma_zero, gaussBroaden_sigma_zero N d f hf,
   rotTaper_zero_bin N j1, modelRotBroaden_tendsto N j1 f hf hj1⟩

/-- Witness for `broaden_zero_kernel_identity` at `N = 2`, the constant flux 1,
and the model Bessel stand-in `j1 = x/2` (which satisfies the limit
hypothesis). -/
theorem broaden_zero_kernel_identity_witness :
    (∀ s : ℝ, gauss_taper s 0 = 1) ∧
    gaussBroaden 2 1 0 (fun _ => 1) = (fun _ => 1) ∧
    (∀ vsini : ℝ, rotTaper 2 (fun x => x / 2) vsini 0 = 1) ∧
    (∀ k : ZMod 2, Filter.Tendsto
      (fun vsini => modelRotBroaden 2 (fun x => x / 2) vsini (fun _ => 1) k)
      (nhdsWithin 0 (Set.Ioi 0)) (nhds 1)) :=
  broaden_zero_kernel_identity 2 1 (fun x => x / 2) (fun _ => 1)
    (fun _ => zero_le_one)
    (by
      have hev : (fun x : ℝ => (x / 2) / x) =ᶠ[nhdsWithin (0:ℝ) {x : ℝ | x ≠ 0}]
          (fun _ => 1 / 2) := by
        refine eventually_mem_nhdsWithin.mono (fun x hx => ?_)
        have hx0 : x ≠ 0 := hx
        show (x / 2) / x = 1 / 2
        field_simp
        ring
      exact Filter.Tendsto.congr' hev.symm tendsto_const_nhds)

theorem resampleAndConvolve_ok (w f wgFine wgCoarse : List ℝ) (d sigma : ℝ)
    (hw4 : 4 ≤ w.length) (hwsort : w.Chain' (· < ·))
    (hf4 : 4 ≤ wgFine.length) (hfsort : wgFine.Chain' (· < ·)) :
    ∃ out, resampleAndConvolve w f wgFine wgCoarse d sigma = .ok out ∧
      out.length = wgCoarse.length := by
  unfold resampleAndConvolve
  rw [if_neg (not_or.mpr ⟨not_lt.mpr hw4, not_not.mpr hwsort⟩),
    if_neg (not_or.mpr ⟨not_lt.mpr hf4, not_not.mpr hfsort⟩)]
  exact ⟨_, rfl, List.length_map _ _⟩

/-- C6 as amended: the resample stage performs no domain check — for every
target grid, including one extending beyond `[w[0], w[-1]]`, it returns a flux
grid of the target's length (the spline extrapolates), and in particular it
never fails with `RangeError` (which does not exist in the source). -/
theorem resampleAndConvolve_extrapolates (w f wgFine wgCoarse : List ℝ)
    (d sigma : ℝ)
    (hw4 : 4 ≤ w.length) (hwsort : w.Chain' (· < ·))
    (hf4 : 4 ≤ wgFine.length) (hfsort : wgFine.Chain' (· < ·)) :
    (∃ out, resampleAndConvolve w f wgFine wgCoarse d sigma = .ok out ∧
      out.length = wgCoarse.length) ∧
    resampleAndConvolve w f wgFine wgCoarse d sigma ≠ .error .rangeError := by
  obtain ⟨out, hout, hlen⟩ := resampleAndConvolve_ok w f wgFine wgCoarse d sigma
    hw4 hwsort hf4 hfsort
  refine ⟨⟨out, hout, hlen⟩, ?_⟩
  rw [hout]
  intro hc
  injection hc

/-- C6 counterexample: with native domain `[1, 5]` and target grids reaching 0
and 6 — strictly beyond the source wavelength domain — the stage returns
normally (extrapolating) instead of failing with `RangeError`. -/
theorem resampleAndConvolve_out_of_domain_returns :
    isOkE (resampleAndConvolve [1, 2, 3, 4, 5] [0, 0, 0, 0, 0]
      [0, 1, 2, 3, 4, 5, 6] [0, 6] (7 / 20) (289 / 100)) = true ∧
    resampleAndConvolve [1, 2, 3, 4, 5] [0, 0, 0, 0, 0]
      [0, 1, 2, 3, 4, 5, 6] [0, 6] (7 / 20) (289 / 100) ≠ .error .rangeError := by
  obtain ⟨out, hout, _⟩ := resampleAndConvolve_ok [1, 2, 3, 4, 5] [0, 0, 0, 0, 0]
    [0, 1, 2, 3, 4, 5, 6] [0, 6] (7 / 20) (289 / 100)
    (by norm_num)
    (by norm_num [List.chain'_cons, List.chain'_singleton])
    (by norm_num)
    (by norm_num [List.chain'_cons, List.chain'_singleton])
  rw [hout]
  exact ⟨rfl, by intro hc; injection hc⟩

/-- Witness for `resampleAndConvolve_extrapolates` on a small concrete input
whose coarse target lies beyond the native domain. -/
theorem resampleAndConvolve_extrapolates_witness :
    (∃ out, resampleAndConvolve [1, 2, 3, 4] [2, 2, 2, 2] [0, 1, 2, 3] [9]
      (7 / 20) (289 / 100) = .ok out ∧ out.length = 1) ∧
    resampleAndConvolve [1, 2, 3, 4] [2, 2, 2, 2] [0, 1, 2, 3] [9]
      (7 / 20) (289 / 100) ≠ .error .rangeError := by
  have h := resampleAndConvolve_extrapolates [1, 2, 3, 4] [2, 2, 2, 2]
    [0, 1, 2, 3] [9] (7 / 20) (289 / 100)
    (by norm_num)
    (by norm_num [List.chain'_cons, List.chain'_singleton])
    (by norm_num)
    (by norm_num [List.chain'_cons, List.chain'_singleton])
  simpa using h

/-- C10 counterexample: source `w_m = [0,10,20,30]` with flux `[0,100,0,0]`
(all values ≤ 100) and target `w_TRES = [8,10,12]`, whose outer bin edges 7 and
13 lie strictly inside the source bin edges −5 and 35.  The middle target bin
`(9,11)` sits strictly inside the single source bin `(5,15)`, the scan's
boundary weight goes negative, and the emitted value is 300 — far above every
source flux sample, so the output is not a nonnegative-weight average of the
overlapping samples and overshoots the local (and even global) flux range. -/
theorem downsample_overshoots :
    downsample [0, 10, 20, 30] [0, 100, 0, 0] [8, 10, 12] = .ok [100, 300, 0] ∧
    ((binEdges [0, 10, 20, 30]).getD 0 0 < (binEdges [(8 : ℚ), 10, 12]).getD 0 0 ∧
     (binEdges [(8 : ℚ), 10, 12]).getD 3 0 < (binEdges [0, 10, 20, 30]).getD 4 0) ∧
    (([0, 100, 0, 0] : List ℚ).all (fun x => decide (x ≤ 100)) = true) ∧
    (100 : ℚ) < 300 := by
  refine ⟨?_, ⟨?_, ?_⟩, ?_, by norm_num⟩
  · norm_num [downsample, binEdges, dsStep, pyIdx, pySlice, npAverage, mkWeights,
      List.foldlM, List.range_succ, Bind.bind, Except.bind, Except.pure, Except.map,
      Pure.pure, Functor.map, Int.toNat_ofNat, Int.toNat, List.getD, List.replicate_succ,
      List.replicate_zero, List.set_cons_zero, List.set_cons_succ, List.zipWith_cons_cons,
      List.sum_cons, List.sum_nil]
  · norm_num [binEdges]
  · norm_num [binEdges]
  · norm_num

theorem binEdges_length (w : List ℚ) (h : 2 ≤ w.length) :
    (binEdges w).length = w.length + 1 := by
  obtain ⟨w0, w1, rest, rfl⟩ : ∃ w0 w1 rest, w = w0 :: w1 :: rest := by
    match w, h with
    | w0 :: w1 :: rest, _ => exact ⟨w0, w1, rest, rfl⟩
  simp only [binEdges, List.length_cons, List.length_append, List.length_map,
    List.length_zip, List.tail_cons, List.length_singleton, List.length_nil]
  omega

theorem pyIdx_nonneg (l : List ℚ) (i : ℤ) (h : 0 ≤ i) :
    pyIdx l i = l.getD i.toNat 0 := by
  unfold pyIdx
  rw [if_neg (not_lt.mpr h)]

theorem pyIdx_natCast (l : List ℚ) (i : ℕ) : pyIdx l (i : ℤ) = l.getD i 0 := by
  rw [pyIdx_nonneg l _ (Int.natCast_nonneg i), Int.toNat_natCast]

theorem pySlice_nonneg (l : List ℚ) (a b : ℤ) (ha : 0 ≤ a) (hab : a ≤ b)
    (hb : b ≤ l.length) :
    pySlice l a b = (l.drop a.toNat).take (b.toNat - a.toNat) := by
  simp only [pySlice]
  have hb0 : 0 ≤ b := le_trans ha hab
  rw [if_neg (not_lt.mpr ha), if_neg (not_lt.mpr hb0)]
  have h1 : min a (l.length : ℤ) = a := min_eq_left (le_trans hab hb)
  have h2 : min b (l.length : ℤ) = b := min_eq_left hb
  rw [h1, h2]

theorem pySlice_length (l : List ℚ) (a b : ℤ) (ha : 0 ≤ a) (hab : a ≤ b)
    (hb : b ≤ l.length) :
    (pySlice l a b).length = b.toNat - a.toNat := by
  rw [pySlice_nonneg l a b ha hab hb, List.length_take, List.length_drop]
  omega

theorem dsStep_done (f_m E P : List ℚ) (m : ℕ) (st : DsState) (i : ℕ)
    (h : st.done = true) : dsStep f_m E P m st i = .ok st := by
  unfold dsStep
  rw [if_pos h]

theorem dsStep_no_trigger (f_m E P : List ℚ) (m : ℕ) (st : DsState) (i : ℕ)
    (h : ¬ pyIdx E st.edgesI < pyIdx P i) : dsStep f_m E P m st i = .ok st := by
  unfold dsStep
  by_cases hd : st.done = true
  · rw [if_pos hd]
  · rw [if_neg hd, if_neg h]

theorem foldlM_dsStep_const (f_m E P : List ℚ) (m : ℕ) (st : DsState) :
    ∀ l : List ℕ, (∀ i ∈ l, dsStep f_m E P m st i = .ok st) →
      l.foldlM (dsStep f_m E P m) st = .ok st := by
  intro l
  induction l with
  | nil => intro _; rfl
  | cons a t ih =>
    intro h
    rw [List.foldlM_cons, h a (List.mem_cons_self a t)]
    exact ih (fun i hi => h i (List.mem_cons.mpr (Or.inr hi)))

theorem find?_range'_eq_some {p : ℕ → Bool} :
    ∀ {c s j : ℕ}, s ≤ j → j < s + c → p j = true →
      (∀ i, s ≤ i → i < j → p i = false) →
      (List.range' s c).find? p = some j := by
  intro c
  induction c with
  | zero => intro s j h1 h2; omega
  | succ c ih =>
    intro s j h1 h2 hp hmin
    have hr : List.range' s (c + 1) = s :: List.range' (s + 1) c := rfl
    rw [hr]
    by_cases hs : s = j
    · subst hs
      rw [List.find?_cons_of_pos _ hp]
    · have hsj : s < j := lt_of_le_of_ne h1 hs
      rw [List.find?_cons_of_neg _ (by rw [hmin s le_rfl hsj]; simp)]
      exact ih hsj (by omega) hp (fun i hi1 hi2 => hmin i (by omega) hi2)

theorem sum_zipWith_ge (c : ℚ) :
    ∀ (ws xs : List ℚ), ws.length = xs.length → (∀ w ∈ ws, 0 ≤ w) →
      (∀ x ∈ xs, c ≤ x) → c * ws.sum ≤ (List.zipWith (· * ·) ws xs).sum := by
  intro ws
  induction ws with
  | nil =>
    intro xs _ _ _
    simp
  | cons w wt ih =>
    intro xs hlen hw hx
    match xs, hlen with
    | x :: xt, hlen =>
      rw [List.zipWith_cons_cons, List.sum_cons, List.sum_cons, mul_add]
      have h1 : c * w ≤ w * x := by
        have hw0 : 0 ≤ w := hw w (List.mem_cons_self _ _)
        have hx0 : c ≤ x := hx x (List.mem_cons_self _ _)
        calc c * w = w * c := mul_comm _ _
          _ ≤ w * x := mul_le_mul_of_nonneg_left hx0 hw0
      have h2 := ih xt (by simpa using hlen)
        (fun y hy => hw y (List.mem_cons.mpr (Or.inr hy)))
        (fun y hy => hx y (List.mem_cons.mpr (Or.inr hy)))
      linarith

theorem sum_zipWith_le (c : ℚ) :
    ∀ (ws xs : List ℚ), ws.length = xs.length → (∀ w ∈ ws, 0 ≤ w) →
      (∀ x ∈ xs, x ≤ c) → (List.zipWith (· * ·) ws xs).sum ≤ c * ws.sum := by
  intro ws
  induction ws with
  | nil =>
    intro xs _ _ _
    simp
  | cons w wt ih =>
    intro xs hlen hw hx
    match xs, hlen with
    | x :: xt, hlen =>
      rw [List.zipWith_cons_cons, List.sum_cons, List.sum_cons, mul_add]
      have h1 : w * x ≤ c * w := by
        have hw0 : 0 ≤ w := hw w (List.mem_cons_self _ _)
        have hx0 : x ≤ c := hx x (List.mem_cons_self _ _)
        calc w * x ≤ w * c := mul_le_mul_of_nonneg_left hx0 hw0
          _ = c * w := mul_comm _ _
      have h2 := ih xt (by simpa using hlen)
        (fun y hy => hw y (List.mem_cons.mpr (Or.inr hy)))
        (fun y hy => hx y (List.mem_cons.mpr (Or.inr hy)))
      linarith

theorem dsWs_head_tail (E P : List ℚ) (τ : ℕ → ℕ) (k : ℕ) (h : τ (k - 1) < τ k) :
    ∃ t, dsWs E P τ k = dsLw E P τ k :: t ∧
      (∀ x ∈ t, x = 1 ∨ x = dsRw E P τ k) ∧
      t.length = τ k - τ (k - 1) := by
  unfold dsWs
  obtain ⟨c', hc'⟩ : ∃ c', τ k - τ (k - 1) = c' + 1 := ⟨τ k - τ (k - 1) - 1, by omega⟩
  rw [hc', List.replicate_succ, List.set_cons_zero, List.set_cons_succ]
  refine ⟨_, rfl, ?_, ?_⟩
  · intro x hx
    rcases List.mem_or_eq_of_mem_set hx with hx | hx
    · exact Or.inl (List.eq_of_mem_replicate hx)
    · exact Or.inr hx
  · rw [List.length_set, List.length_replicate]

theorem dsWs_nonneg (E P : List ℚ) (τ : ℕ → ℕ) (k : ℕ) (h : τ (k - 1) < τ k)
    (hlw : 0 ≤ dsLw E P τ k) (hrw : 0 ≤ dsRw E P τ k) :
    ∀ w ∈ dsWs E P τ k, 0 ≤ w := by
  obtain ⟨t, ht, htmem, _⟩ := dsWs_head_tail E P τ k h
  rw [ht]
  intro w hw
  rcases List.mem_cons.mp hw with rfl | hw
  · exact hlw
  · rcases htmem w hw with rfl | rfl
    · exact zero_le_one
    · exact hrw

theorem dsWs_sum_pos (E P : List ℚ) (τ : ℕ → ℕ) (k : ℕ) (h : τ (k - 1) < τ k)
    (hlw : 0 < dsLw E P τ k) (hrw : 0 ≤ dsRw E P τ k) :
    0 < (dsWs E P τ k).sum := by
  obtain ⟨t, ht, htmem, _⟩ := dsWs_head_tail E P τ k h
  rw [ht, List.sum_cons]
  have htsum : 0 ≤ t.sum := List.sum_nonneg (fun x hx => by
    rcases htmem x hx with rfl | rfl
    · exact zero_le_one
    · exact hrw)
  linarith

theorem dsWs_length (E P : List ℚ) (τ : ℕ → ℕ) (k : ℕ) :
    (dsWs E P τ k).length = τ k - τ (k - 1) + 1 := by
  unfold dsWs
  rw [List.length_set, List.length_set, List.length_replicate]

theorem dsWin_length (f_m : List ℚ) (τ : ℕ → ℕ) (k n : ℕ)
    (hfm : f_m.length = n) (hτk1 : 1 ≤ τ (k - 1)) (hτmono : τ (k - 1) < τ k)
    (hτn : τ k ≤ n) :
    (dsWin f_m τ k).length = τ k - τ (k - 1) + 1 := by
  unfold dsWin
  rw [pySlice_length f_m _ _ (by omega) (by omega) (by rw [hfm]; exact_mod_cast by omega)]
  omega

theorem exceptBind_ok {ε α β : Type} (a : α) (f : α → Except ε β) :
    (Except.ok (ε := ε) a >>= f) = f a := rfl

theorem dsStep_trigger (f_m E P : List ℚ) (τ : ℕ → ℕ) (m k n : ℕ)
    (hfm : f_m.length = n)
    (hk1 : 1 ≤ k) (hkm : k ≤ m)
    (hτk1 : 1 ≤ τ (k - 1))
    (hτmono : τ (k - 1) < τ k)
    (hτn : τ k ≤ n)
    (hcap : τ k - τ (k - 1) ≤ 9)
    (htrig : E.getD k 0 < P.getD (τ k) 0)
    (hlwpos : 0 < dsLw E P τ k)
    (hrwpos : 0 ≤ dsRw E P τ k)
    (hden : P.getD (τ k - 1) 0 < P.getD (τ k) 0) :
    dsStep f_m E P m (dsSt f_m E P τ m k) (τ k) =
      .ok (dsSt f_m E P τ m (k + 1)) := by
  have hdone : decide (m < k) = false := decide_eq_false (by omega)
  have hτk2 : 2 ≤ τ k := by omega
  have hpyPrev : pyIdx P ((τ k : ℤ) - 1) = P.getD (τ k - 1) 0 := by
    rw [pyIdx_nonneg P _ (by omega)]
    congr 1
    omega
  have hlen : min 10 (max 0 ((τ k : ℤ) - ((τ (k - 1) : ℤ) - 1))).toNat =
      τ k - τ (k - 1) + 1 := by omega
  have hweq : mkWeights ((τ k : ℤ) - ((τ (k - 1) : ℤ) - 1)) (dsLw E P τ k)
      ((E.getD k 0 - P.getD (τ k - 1) 0) / (P.getD (τ k) 0 - P.getD (τ k - 1) 0)) =
      .ok (dsWs E P τ k) := by
    unfold mkWeights
    simp only [hlen]
    rw [if_neg (by omega), Nat.add_sub_cancel]
    rfl
  have havg : npAverage (pySlice f_m ((τ (k - 1) : ℤ) - 1) ((τ k : ℕ) : ℤ))
      (dsWs E P τ k) = .ok (dsAvg f_m E P τ k) := by
    unfold npAverage
    have hwin : pySlice f_m ((τ (k - 1) : ℤ) - 1) ((τ k : ℕ) : ℤ) = dsWin f_m τ k := rfl
    rw [hwin, if_neg (by
      rw [dsWin_length f_m τ k n hfm hτk1 hτmono hτn, dsWs_length]
      exact fun hne => hne rfl),
      if_neg (ne_of_gt (dsWs_sum_pos E P τ k hτmono hlwpos hrwpos))]
    rfl
  unfold dsStep
  simp only [dsSt]
  rw [hdone, if_neg Bool.false_ne_true,
    pyIdx_natCast E k, pyIdx_natCast P (τ k), if_pos htrig, hpyPrev, hweq,
    exceptBind_ok, havg, exceptBind_ok]
  show Except.ok _ = _
  refine congrArg Except.ok ?_
  have hk11 : k + 1 - 1 = (k - 1) + 1 := by omega
  refine congrArg₂ (fun a b => DsState.mk a (k + 1) ((τ (k + 1 - 1) : ℤ) - 1) b
    (decide (m < k + 1))) ?_ ?_
  · rw [hk11, List.range_succ, List.map_append]
    simp only [List.map_cons, List.map_nil]
    rw [show (k - 1) + 1 = k from by omega]
  · have hd0 : P.getD (τ k) 0 - P.getD (τ k - 1) 0 ≠ 0 := by
      intro hc
      rw [sub_eq_zero] at hc
      exact absurd hc (ne_of_gt hden)
    unfold dsLw
    simp only [Nat.add_sub_cancel]
    rw [← div_self hd0, div_sub_div_same]
    congr 1
    ring

theorem dsFold (f_m E P : List ℚ) (τ : ℕ → ℕ) (m n : ℕ)
    (hfm : f_m.length = n)
    (hτpos : ∀ k, k ≤ m → 1 ≤ τ k)
    (hτn : ∀ k, k ≤ m → τ k ≤ n)
    (hτtrig : ∀ k, k ≤ m → E.getD k 0 < P.getD (τ k) 0)
    (hτmin : ∀ k, k ≤ m → ∀ i, i < τ k → P.getD i 0 ≤ E.getD k 0)
    (hτmono : ∀ k, 1 ≤ k → k ≤ m → τ (k - 1) < τ k)
    (hτcap : ∀ k, 1 ≤ k → k ≤ m → τ k - τ (k - 1) ≤ 9)
    (hPmono : ∀ i j, i < j → j ≤ n → P.getD i 0 < P.getD j 0) :
    ∀ (d k : ℕ), k + d = m + 1 → 1 ≤ k → ∀ a, (k ≤ m → a ≤ τ k) →
      (List.range' a (n + 1 - a)).foldlM (dsStep f_m E P m) (dsSt f_m E P τ m k) =
        .ok (dsSt f_m E P τ m (m + 1)) := by
  intro d
  induction d with
  | zero =>
    intro k hk _ a _
    have hkm : k = m + 1 := by omega
    subst hkm
    refine foldlM_dsStep_const f_m E P m _ _ (fun i _ => dsStep_done f_m E P m _ i ?_)
    show decide (m < m + 1) = true
    exact decide_eq_true (by omega)
  | succ d ih =>
    intro k hk hk1 a ha
    have hkm : k ≤ m := by omega
    have haτ : a ≤ τ k := ha hkm
    have hτkn : τ k ≤ n := hτn k hkm
    have hτk1 : 1 ≤ τ (k - 1) := hτpos (k - 1) (by omega)
    have hτkk : τ (k - 1) < τ k := hτmono k hk1 hkm
    have hsplit : List.range' a (n + 1 - a) =
        List.range' a (τ k - a) ++ List.range' (τ k) (n + 1 - τ k) := by
      have h := List.range'_append a (τ k - a) (n + 1 - τ k) 1
      rw [one_mul, show a + (τ k - a) = τ k from by omega,
        show n + 1 - τ k + (τ k - a) = n + 1 - a from by omega] at h
      exact h.symm
    rw [hsplit, List.foldlM_append]
    have hfirst : (List.range' a (τ k - a)).foldlM (dsStep f_m E P m)
        (dsSt f_m E P τ m k) = .ok (dsSt f_m E P τ m k) := by
      refine foldlM_dsStep_const f_m E P m _ _ (fun i hi => ?_)
      have hilt : i < τ k := by
        rcases List.mem_range'_1.mp hi with ⟨_, h2⟩
        omega
      refine dsStep_no_trigger f_m E P m _ i ?_
      have hidx : (dsSt f_m E P τ m k).edgesI = k := rfl
      rw [hidx, pyIdx_natCast E k, pyIdx_natCast P i]
      exact not_lt.mpr (hτmin k hkm i hilt)
    rw [hfirst, exceptBind_ok]
    have hsecond : List.range' (τ k) (n + 1 - τ k) =
        τ k :: List.range' (τ k + 1) (n - τ k) := by
      rw [show n + 1 - τ k = (n - τ k) + 1 from by omega]
      rfl
    rw [hsecond, List.foldlM_cons]
    have hlw : 0 < dsLw E P τ k := by
      apply div_pos
      · have := hτtrig (k - 1) (by omega)
        linarith
      · have := hPmono (τ (k - 1) - 1) (τ (k - 1)) (by omega) (le_trans (le_of_lt hτkk) hτkn)
        linarith
    have hτkpos : 1 ≤ τ k := hτpos k hkm
    have hdenk : P.getD (τ k - 1) 0 < P.getD (τ k) 0 :=
      hPmono (τ k - 1) (τ k) (by omega) hτkn
    have hrw : 0 ≤ dsRw E P τ k := by
      apply div_nonneg
      · have := hτmin k hkm (τ k - 1) (by omega)
        linarith
      · linarith
    rw [dsStep_trigger f_m E P τ m k n hfm hk1 hkm hτk1 hτkk hτkn
      (hτcap k hk1 hkm) (hτtrig k hkm) hlw hrw hdenk, exceptBind_ok]
    have hrest := ih (k + 1) (by omega) (by omega) (τ k + 1)
      (fun hk1m => by
        have h2 := hτmono (k + 1) (by omega) hk1m
        rw [Nat.add_sub_cancel] at h2
        omega)
    rw [show n + 1 - (τ k + 1) = n - τ k from by omega] at hrest
    exact hrest

theorem dsWin_take_drop (f_m : List ℚ) (τ : ℕ → ℕ) (k n : ℕ)
    (hfm : f_m.length = n) (hτk1 : 1 ≤ τ (k - 1)) (hτmono : τ (k - 1) < τ k)
    (hτn : τ k ≤ n) :
    dsWin f_m τ k = (f_m.drop (τ (k - 1) - 1)).take (τ k - (τ (k - 1) - 1)) := by
  unfold dsWin
  rw [pySlice_nonneg f_m _ _ (by omega) (by omega)
    (by rw [hfm]; exact_mod_cast (hτn : τ k ≤ n))]
  have h1 : ((τ (k - 1) : ℤ) - 1).toNat = τ (k - 1) - 1 := by omega
  have h2 : ((τ k : ℕ) : ℤ).toNat = τ k := by omega
  rw [h1, h2]

theorem dsAvg_bounds (f_m E P : List ℚ) (τ : ℕ → ℕ) (k n : ℕ)
    (hfm : f_m.length = n)
    (hτk1 : 1 ≤ τ (k - 1)) (hτmono : τ (k - 1) < τ k) (hτn : τ k ≤ n)
    (hlwpos : 0 < dsLw E P τ k) (hrwpos : 0 ≤ dsRw E P τ k) :
    (∃ jlo, τ (k - 1) - 1 ≤ jlo ∧ jlo < τ k ∧
      f_m.getD jlo 0 ≤ dsAvg f_m E P τ k) ∧
    (∃ jhi, τ (k - 1) - 1 ≤ jhi ∧ jhi < τ k ∧
      dsAvg f_m E P τ k ≤ f_m.getD jhi 0) := by
  have hwl : (dsWin f_m τ k).length = τ k - τ (k - 1) + 1 :=
    dsWin_length f_m τ k n hfm hτk1 hτmono hτn
  have hwsl : (dsWs E P τ k).length = τ k - τ (k - 1) + 1 :=
    dsWs_length E P τ k
  have hwnonneg : ∀ w ∈ dsWs E P τ k, 0 ≤ w :=
    dsWs_nonneg E P τ k hτmono (le_of_lt hlwpos) hrwpos
  have hsumpos : 0 < (dsWs E P τ k).sum :=
    dsWs_sum_pos E P τ k hτmono hlwpos hrwpos
  have hlenwsw : (dsWs E P τ k).length = (dsWin f_m τ k).length := by rw [hwsl, hwl]
  have hwne : dsWin f_m τ k ≠ [] := by
    intro hnil
    rw [hnil] at hwl
    simp at hwl
  have hform := dsWin_take_drop f_m τ k n hfm hτk1 hτmono hτn
  have hidx : ∀ x ∈ dsWin f_m τ k, ∃ j, τ (k - 1) - 1 ≤ j ∧ j < τ k ∧
      f_m.getD j 0 = x := by
    intro x hx
    rw [hform] at hx
    obtain ⟨p, hp, hgetp⟩ := List.mem_iff_getElem.mp hx
    have hp' : p < τ k - τ (k - 1) + 1 := by
      have hlen := hp
      rw [List.length_take, List.length_drop, hfm] at hlen
      omega
    refine ⟨(τ (k - 1) - 1) + p, by omega, by omega, ?_⟩
    have hjlen : (τ (k - 1) - 1) + p < f_m.length := by rw [hfm]; omega
    rw [List.getD_eq_getElem f_m 0 hjlen]
    rw [List.getElem_take, List.getElem_drop] at hgetp
    exact hgetp
  constructor
  · cases hargmin : (dsWin f_m τ k).argmin id with
    | none => exact absurd (List.argmin_eq_none.mp hargmin) hwne
    | some lo =>
      have hlomem : lo ∈ dsWin f_m τ k := List.argmin_mem hargmin
      have hlomin : ∀ x ∈ dsWin f_m τ k, lo ≤ x := fun x hx =>
        @List.le_of_mem_argmin ℚ ℚ _ id _ x lo hx (Option.mem_def.mpr hargmin)
      obtain ⟨j, hj1, hj2, hj3⟩ := hidx lo hlomem
      refine ⟨j, hj1, hj2, ?_⟩
      rw [hj3]
      unfold dsAvg
      rw [le_div_iff₀ hsumpos]
      calc lo * (dsWs E P τ k).sum = (dsWs E P τ k).sum * lo := mul_comm _ _
        _ ≤ _ := by
          have := sum_zipWith_ge lo (dsWs E P τ k) (dsWin f_m τ k) hlenwsw hwnonneg hlomin
          linarith
  · cases hargmax : (dsWin f_m τ k).argmax id with
    | none => exact absurd (List.argmax_eq_none.mp hargmax) hwne
    | some hi =>
      have hhimem : hi ∈ dsWin f_m τ k := List.argmax_mem hargmax
      have hhimax : ∀ x ∈ dsWin f_m τ k, x ≤ hi := fun x hx =>
        @List.le_of_mem_argmax ℚ ℚ _ id _ x hi hx (Option.mem_def.mpr hargmax)
      obtain ⟨j, hj1, hj2, hj3⟩ := hidx hi hhimem
      refine ⟨j, hj1, hj2, ?_⟩
      rw [hj3]
      unfold dsAvg
      rw [div_le_iff₀ hsumpos]
      calc (List.zipWith (· * ·) (dsWs E P τ k) (dsWin f_m τ k)).sum
          ≤ hi * (dsWs E P τ k).sum :=
            sum_zipWith_le hi (dsWs E P τ k) (dsWin f_m τ k) hlenwsw hwnonneg hhimax
        _ = hi * (dsWs E P τ k).sum := rfl

set_option maxHeartbeats 1000000 in
/-- C10 (amended): under the geometric conditions the scan actually relies on —
strictly increasing bin edges on both grids, the target's outer edges strictly
inside the source's outer edges, consecutive target edges separated by at least
one source edge, and at most nine source edges inside any target bin (the
10-slot `ones` weight buffer) — `downsample` succeeds, emits one value per
target point, and every output flux value is bounded below and above by source
flux samples whose bins overlap that target bin: no overshoot. -/
theorem downsample_bounded (w_m f_m w_TRES : List ℚ)
    (hn2 : 2 ≤ w_m.length) (hm2 : 2 ≤ w_TRES.length)
    (hflen : f_m.length = w_m.length)
    (hEchain : (binEdges w_TRES).Chain' (· < ·))
    (hPchain : (binEdges w_m).Chain' (· < ·))
    (houter1 : (binEdges w_m).getD 0 0 < (binEdges w_TRES).getD 0 0)
    (houter2 : (binEdges w_TRES).getD w_TRES.length 0 <
      (binEdges w_m).getD w_m.length 0)
    (hsep : ∀ k, 1 ≤ k → k ≤ w_TRES.length → ∃ j, j ≤ w_m.length ∧
      (binEdges w_TRES).getD (k - 1) 0 < (binEdges w_m).getD j 0 ∧
      (binEdges w_m).getD j 0 ≤ (binEdges w_TRES).getD k 0)
    (hcap : ∀ k, 1 ≤ k → k ≤ w_TRES.length → ∀ i j, i ≤ j → j ≤ w_m.length →
      (binEdges w_TRES).getD (k - 1) 0 < (binEdges w_m).getD i 0 →
      (binEdges w_m).getD j 0 ≤ (binEdges w_TRES).getD k 0 → j - i ≤ 8) :
    ∃ outs, downsample w_m f_m w_TRES = .ok outs ∧
      outs.length = w_TRES.length ∧
      ∀ b, b < w_TRES.length →
        (∃ jlo, binsOverlap w_m w_TRES jlo b ∧ f_m.getD jlo 0 ≤ outs.getD b 0) ∧
        (∃ jhi, binsOverlap w_m w_TRES jhi b ∧ outs.getD b 0 ≤ f_m.getD jhi 0) := by
  have hPlen : (binEdges w_m).length = w_m.length + 1 := binEdges_length w_m hn2
  have hElen : (binEdges w_TRES).length = w_TRES.length + 1 :=
    binEdges_length w_TRES hm2
  have hPmono : ∀ i j, i < j → j ≤ w_m.length →
      (binEdges w_m).getD i 0 < (binEdges w_m).getD j 0 := by
    intro i j hij hj
    have hiP : i < (binEdges w_m).length := by rw [hPlen]; omega
    have hjP : j < (binEdges w_m).length := by rw [hPlen]; omega
    rw [List.getD_eq_getElem _ 0 hiP, List.getD_eq_getElem _ 0 hjP]
    exact List.pairwise_iff_getElem.mp (List.chain'_iff_pairwise.mp hPchain)
      i j hiP hjP hij
  have hEmono : ∀ i j, i < j → j ≤ w_TRES.length →
      (binEdges w_TRES).getD i 0 < (binEdges w_TRES).getD j 0 := by
    intro i j hij hj
    have hiE : i < (binEdges w_TRES).length := by rw [hElen]; omega
    have hjE : j < (binEdges w_TRES).length := by rw [hElen]; omega
    rw [List.getD_eq_getElem _ 0 hiE, List.getD_eq_getElem _ 0 hjE]
    exact List.pairwise_iff_getElem.mp (List.chain'_iff_pairwise.mp hEchain)
      i j hiE hjE hij
  have hPmono_le : ∀ i j, i ≤ j → j ≤ w_m.length →
      (binEdges w_m).getD i 0 ≤ (binEdges w_m).getD j 0 := by
    intro i j hij hj
    rcases eq_or_lt_of_le hij with rfl | h
    · exact le_refl _
    · exact le_of_lt (hPmono i j h hj)
  have hEmono_le : ∀ i j, i ≤ j → j ≤ w_TRES.length →
      (binEdges w_TRES).getD i 0 ≤ (binEdges w_TRES).getD j 0 := by
    intro i j hij hj
    rcases eq_or_lt_of_le hij with rfl | h
    · exact le_refl _
    · exact le_of_lt (hEmono i j h hj)
  have hexist : ∀ k : ℕ, ∃ j, (binEdges w_TRES).getD k 0 <
      (binEdges w_m).getD j 0 ∨ w_m.length ≤ j :=
    fun _ => ⟨w_m.length, Or.inr le_rfl⟩
  set τ : ℕ → ℕ := fun k => Nat.find (hexist k) with hτdef
  have hτle : ∀ k, τ k ≤ w_m.length :=
    fun k => Nat.find_min' (hexist k) (Or.inr le_rfl)
  have hτmin : ∀ k, ∀ i, i < τ k →
      (binEdges w_m).getD i 0 ≤ (binEdges w_TRES).getD k 0 := by
    intro k i hi
    have h := Nat.find_min (hexist k) hi
    push_neg at h
    exact h.1
  have hτtrig : ∀ k, k ≤ w_TRES.length →
      (binEdges w_TRES).getD k 0 < (binEdges w_m).getD (τ k) 0 := by
    intro k hk
    rcases Nat.find_spec (hexist k) with h | h
    · exact h
    · have heq : τ k = w_m.length := le_antisymm (hτle k) h
      rw [heq]
      calc (binEdges w_TRES).getD k 0
          ≤ (binEdges w_TRES).getD w_TRES.length 0 := hEmono_le k _ hk le_rfl
        _ < (binEdges w_m).getD w_m.length 0 := houter2
  have hτpos : ∀ k, k ≤ w_TRES.length → 1 ≤ τ k := by
    intro k hk
    by_contra hc
    have h0 : τ k = 0 := by omega
    have h1 := hτtrig k hk
    rw [h0] at h1
    have h2 : (binEdges w_TRES).getD 0 0 ≤ (binEdges w_TRES).getD k 0 :=
      hEmono_le 0 k (Nat.zero_le k) hk
    linarith
  have hτmono : ∀ k, 1 ≤ k → k ≤ w_TRES.length → τ (k - 1) < τ k := by
    intro k hk1 hkm
    obtain ⟨j, hjn, hj1, hj2⟩ := hsep k hk1 hkm
    have hτk1j : τ (k - 1) ≤ j := Nat.find_min' (hexist (k - 1)) (Or.inl hj1)
    by_contra hcon
    have hle : τ k ≤ τ (k - 1) := not_lt.mp hcon
    have h3 : (binEdges w_m).getD (τ k) 0 ≤ (binEdges w_m).getD j 0 :=
      hPmono_le (τ k) j (le_trans hle hτk1j) hjn
    have h4 := hτtrig k hkm
    linarith
  have hτcap : ∀ k, 1 ≤ k → k ≤ w_TRES.length → τ k - τ (k - 1) ≤ 9 := by
    intro k hk1 hkm
    have h1 := hτtrig (k - 1) (by omega)
    have h2 : (binEdges w_m).getD (τ k - 1) 0 ≤ (binEdges w_TRES).getD k 0 :=
      hτmin k (τ k - 1) (by have := hτpos k hkm; omega)
    have h3 := hcap k hk1 hkm (τ (k - 1)) (τ k - 1)
      (by have := hτmono k hk1 hkm; omega) (by have := hτle k; omega) h1 h2
    have := hτpos k hkm
    omega
  refine ⟨(List.range w_TRES.length).map
    (fun b => dsAvg f_m (binEdges w_TRES) (binEdges w_m) τ (b + 1)), ?_, ?_, ?_⟩
  · simp only [downsample]
    rw [if_neg (by simp only [not_or, not_lt]; exact ⟨hn2, hm2⟩)]
    have hfind : (List.range (binEdges w_m).length).find?
        (fun j => decide ((binEdges w_TRES).getD 0 0 < (binEdges w_m).getD j 0)) =
        some (τ 0) := by
      rw [hPlen, List.range_eq_range']
      exact find?_range'_eq_some (Nat.zero_le _) (by have := hτle 0; omega)
        (decide_eq_true (hτtrig 0 (Nat.zero_le _)))
        (fun i _ hi => decide_eq_false (not_lt.mpr (hτmin 0 i hi)))
    rw [hfind]
    dsimp only
    have harith : ((τ 0 : ℤ) - 1 + 1) = ((τ 0 : ℕ) : ℤ) := by ring
    rw [harith, pyIdx_natCast]
    have hprev : pyIdx (binEdges w_m) ((τ 0 : ℤ) - 1) =
        (binEdges w_m).getD (τ 0 - 1) 0 := by
      rw [pyIdx_nonneg _ _ (by have := hτpos 0 (Nat.zero_le _); omega)]
      congr 1
      omega
    rw [hprev]
    have hinit : (⟨[], 1, (τ 0 : ℤ) - 1,
        ((binEdges w_m).getD (τ 0) 0 - (binEdges w_TRES).getD 0 0) /
          ((binEdges w_m).getD (τ 0) 0 - (binEdges w_m).getD (τ 0 - 1) 0),
        false⟩ : DsState) =
        dsSt f_m (binEdges w_TRES) (binEdges w_m) τ w_TRES.length 1 := by
      unfold dsSt dsLw
      norm_num
      intro hc
      subst hc
      simp at hm2
    rw [hinit, List.range_eq_range']
    have hfold := dsFold f_m (binEdges w_TRES) (binEdges w_m) τ
      w_TRES.length w_m.length hflen hτpos (fun k _ => hτle k) hτtrig
      (fun k _ i hi => hτmin k i hi) hτmono hτcap hPmono
      w_TRES.length 1 (by omega) le_rfl 0 (fun _ => Nat.zero_le _)
    simp only [Nat.sub_zero] at hfold
    rw [hfold]
    simp only [dsSt, Nat.add_sub_cancel, List.length_map, List.length_range,
      Nat.sub_self, List.replicate_zero, List.append_nil]
  · rw [List.length_map, List.length_range]
  · intro b hb
    have hblen : b < ((List.range w_TRES.length).map
        (fun b => dsAvg f_m (binEdges w_TRES) (binEdges w_m) τ (b + 1))).length := by
      rw [List.length_map, List.length_range]
      exact hb
    have houtb : ((List.range w_TRES.length).map
        (fun b => dsAvg f_m (binEdges w_TRES) (binEdges w_m) τ (b + 1))).getD b 0 =
        dsAvg f_m (binEdges w_TRES) (binEdges w_m) τ (b + 1) := by
      rw [List.getD_eq_getElem _ 0 hblen, List.getElem_map, List.getElem_range]
    rw [houtb]
    have hbm : b + 1 ≤ w_TRES.length := by omega
    have hτb1 : 1 ≤ τ b := hτpos b (by omega)
    have hτmonob : τ b < τ (b + 1) := by
      have := hτmono (b + 1) (by omega) hbm
      rwa [Nat.add_sub_cancel] at this
    have hτnb : τ (b + 1) ≤ w_m.length := hτle (b + 1)
    have hlw : 0 < dsLw (binEdges w_TRES) (binEdges w_m) τ (b + 1) := by
      unfold dsLw
      simp only [Nat.add_sub_cancel]
      apply div_pos
      · have := hτtrig b (by omega)
        linarith
      · have := hPmono (τ b - 1) (τ b) (by omega) (le_trans (le_of_lt hτmonob) hτnb)
        linarith
    have hrw : 0 ≤ dsRw (binEdges w_TRES) (binEdges w_m) τ (b + 1) := by
      unfold dsRw
      apply div_nonneg
      · have h1 : (binEdges w_m).getD (τ (b + 1) - 1) 0 ≤
            (binEdges w_TRES).getD (b + 1) 0 :=
          hτmin (b + 1) (τ (b + 1) - 1) (by omega)
        have h2 := hτtrig (b + 1) hbm
        linarith
      · have := hPmono (τ (b + 1) - 1) (τ (b + 1)) (by omega) hτnb
        linarith
    have hbounds := dsAvg_bounds f_m (binEdges w_TRES) (binEdges w_m) τ
      (b + 1) w_m.length hflen (by rwa [Nat.add_sub_cancel])
      (by rwa [Nat.add_sub_cancel]) hτnb hlw hrw
    rw [Nat.add_sub_cancel] at hbounds
    obtain ⟨⟨jlo, hl1, hl2, hl3⟩, ⟨jhi, hh1, hh2, hh3⟩⟩ := hbounds
    have hover : ∀ j, τ b - 1 ≤ j → j < τ (b + 1) → binsOverlap w_m w_TRES j b := by
      intro j hj1 hj2
      constructor
      · exact hτmin (b + 1) j hj2
      · have h1 : (binEdges w_m).getD (τ b) 0 ≤ (binEdges w_m).getD (j + 1) 0 :=
          hPmono_le (τ b) (j + 1) (by omega) (by omega)
        have h2 := hτtrig b (by omega)
        linarith
    exact ⟨⟨jlo, hover jlo hl1 hl2, hl3⟩, ⟨jhi, hover jhi hh1 hh2, hh3⟩⟩

set_option maxHeartbeats 2000000 in
/-- Witness for C10: source grid `0..9`, flux `[5,1,4,1,5,9,2,6,5,3]`, target
grid `[3,5]` — every geometric hypothesis holds concretely and the bounded
conclusion follows. -/
theorem downsample_bounded_witness :
    ∃ outs, downsample [0, 1, 2, 3, 4, 5, 6, 7, 8, 9] [5, 1, 4, 1, 5, 9, 2, 6, 5, 3]
        [3, 5] = .ok outs ∧
      outs.length = ([3, 5] : List ℚ).length ∧
      ∀ b, b < ([3, 5] : List ℚ).length →
        (∃ jlo, binsOverlap [0, 1, 2, 3, 4, 5, 6, 7, 8, 9] [3, 5] jlo b ∧
          ([5, 1, 4, 1, 5, 9, 2, 6, 5, 3] : List ℚ).getD jlo 0 ≤ outs.getD b 0) ∧
        (∃ jhi, binsOverlap [0, 1, 2, 3, 4, 5, 6, 7, 8, 9] [3, 5] jhi b ∧
          outs.getD b 0 ≤ ([5, 1, 4, 1, 5, 9, 2, 6, 5, 3] : List ℚ).getD jhi 0) := by
  refine downsample_bounded [0, 1, 2, 3, 4, 5, 6, 7, 8, 9]
    [5, 1, 4, 1, 5, 9, 2, 6, 5, 3] [3, 5]
    (by norm_num) (by norm_num) (by norm_num)
    (by norm_num [binEdges, List.chain'_cons, List.chain'_singleton])
    (by norm_num [binEdges, List.chain'_cons, List.chain'_singleton])
    (by norm_num [binEdges]) (by norm_num [binEdges]) ?_ ?_
  · intro k hk1 hk2
    norm_num at hk2
    interval_cases k
    · exact ⟨3, by norm_num, by norm_num [binEdges], by norm_num [binEdges]⟩
    · exact ⟨5, by norm_num, by norm_num [binEdges], by norm_num [binEdges]⟩
  · intro k hk1 hk2 i j hij hjn hlo hhi
    norm_num at hk2 hjn
    interval_cases k <;> interval_cases j <;>
      first
        | omega
        | norm_num [binEdges] at hhi

end Starfish
